import Mathlib

/-!
Verification development for `sitemapper.py` (RogerHagman/sitemapper).

URLs are modelled as lists of characters (`Str`).  The Python standard
library's `urllib.parse.urlparse` is embedded faithfully for the fragment
of behaviour the program exercises (scheme / netloc / fragment / query /
params splitting, as in CPython's `urlsplit` + `_splitparams`).  The HTTP
transport, the HTML parser (BeautifulSoup) and `urljoin` are external
capabilities consumed by the program; they are modelled as parameters
(`fetch`, `PageContent`, `join`) of the crawl engine.
-/

/-- URLs and other Python strings are modelled as lists of characters. -/
abbrev Str := List Char

/-- Boolean test that `pat` is a leading segment of the second argument
(Python `str.startswith`). -/
def isPfx : Str → Str → Bool
  | [], _ => true
  | _ :: _, [] => false
  | a :: as, b :: bs => a == b && isPfx as bs

/-- Boolean substring test (Python `pat in s`). -/
def containsSub (pat : Str) : Str → Bool
  | [] => pat.isEmpty
  | c :: rest => isPfx pat (c :: rest) || containsSub pat rest

/-- Boolean test that `pat` is a trailing segment of `s` (Python `str.endswith`). -/
def isSfx (pat s : Str) : Bool := isPfx pat.reverse s.reverse

/-- ASCII lower-casing of one character (Python `str.lower`, ASCII range). -/
def lowerChar (c : Char) : Char :=
  if 65 ≤ c.toNat ∧ c.toNat ≤ 90 then Char.ofNat (c.toNat + 32) else c

/-- ASCII lower-casing of a string (Python `str.lower`). -/
def lowerStr (s : Str) : Str := s.map lowerChar

/-- Python whitespace characters stripped by `str.strip()`. -/
def isPySpace (c : Char) : Bool :=
  c == ' ' || c == '\t' || c == '\n' || c == '\r' || c == '\x0b' || c == '\x0c'

/-- Python `str.strip()`: drop whitespace from both ends. -/
def stripStr (s : Str) : Str :=
  ((s.dropWhile isPySpace).reverse.dropWhile isPySpace).reverse

/-- Python `s.rstrip('/')`: drop every trailing `'/'`. -/
def rstripSlash (s : Str) : Str :=
  (s.reverse.dropWhile (fun c => c == '/')).reverse

/-- Split a string at the first occurrence of `c`; `none` when `c` is absent
(the list analogue of Python `str.find` + slicing, or `str.split(c, 1)`). -/
def splitAtFirst (c : Char) : Str → Option (Str × Str)
  | [] => none
  | a :: rest =>
    if a = c then some ([], rest)
    else (splitAtFirst c rest).map (fun p => (a :: p.1, p.2))

/-- Split a string at the last occurrence of `c` (Python `str.rfind`). -/
def splitAtLast (c : Char) (s : Str) : Option (Str × Str) :=
  match splitAtFirst c s.reverse with
  | some (x, y) => some (y.reverse, x.reverse)
  | none => none

/-- ASCII letter test (CPython requires the scheme to start with one). -/
def isAsciiAlpha (c : Char) : Bool :=
  (65 ≤ c.toNat && c.toNat ≤ 90) || (97 ≤ c.toNat && c.toNat ≤ 122)

/-- ASCII digit test. -/
def isAsciiDigit (c : Char) : Bool := 48 ≤ c.toNat && c.toNat ≤ 57

/-- Characters allowed after the first character of a URL scheme
(CPython `scheme_chars`: letters, digits, `+`, `-`, `.`). -/
def isSchemeChar (c : Char) : Bool :=
  isAsciiAlpha c || isAsciiDigit c || c == '+' || c == '-' || c == '.'

/-- CPython `urlsplit` accepts `pre` as a scheme when it is nonempty, starts
with an ASCII letter, and its remaining characters are scheme characters. -/
def validScheme : Str → Bool
  | [] => false
  | c :: cs => isAsciiAlpha c && cs.all isSchemeChar

/-- Stage 1 of CPython `urlsplit`: split off `scheme:` when the text before
the first `:` is a valid scheme; the scheme is lower-cased. -/
def schemeSplit (u : Str) : Str × Str :=
  match splitAtFirst ':' u with
  | some (pre, post) =>
    if validScheme pre then (lowerStr pre, post) else ([], u)
  | none => ([], u)

/-- A character that does not terminate the netloc (CPython `_splitnetloc`
stops at `/`, `?` and `#`). -/
def nlOk (c : Char) : Bool := !(c == '/' || c == '?' || c == '#')

/-- Stage 2 of CPython `urlsplit`: when the rest starts with `//`, the netloc
runs up to the first `/`, `?` or `#`. -/
def netlocSplit (r : Str) : Str × Str :=
  if r.take 2 = ['/', '/'] then
    ((r.drop 2).takeWhile nlOk, (r.drop 2).dropWhile nlOk)
  else ([], r)

/-- Stage 3 of CPython `urlsplit`: split off the fragment at the first `#`. -/
def fragSplit (r : Str) : Str × Str :=
  match splitAtFirst '#' r with
  | some (a, b) => (a, b)
  | none => (r, [])

/-- Stage 4 of CPython `urlsplit`: split off the query at the first `?`. -/
def querySplit (r : Str) : Str × Str :=
  match splitAtFirst '?' r with
  | some (a, b) => (a, b)
  | none => (r, [])

/-- Result of CPython `urlsplit`. -/
structure SplitResult where
  scheme : Str
  netloc : Str
  path : Str
  query : Str
  fragment : Str
deriving DecidableEq

/-- CPython `urllib.parse.urlsplit`. -/
def urlsplitList (u : Str) : SplitResult :=
  let sr := schemeSplit u
  let nr := netlocSplit sr.2
  let fr := fragSplit nr.2
  let qr := querySplit fr.1
  ⟨sr.1, nr.1, qr.1, qr.2, fr.2⟩

/-- CPython `urllib.parse._splitparams`: split `;params` off the last path
segment (searching for `;` only at or after the last `/`). -/
def splitparamsPair (p : Str) : Str × Str :=
  if ';' ∈ p then
    match splitAtLast '/' p with
    | some (a, b) =>
      match splitAtFirst ';' b with
      | some (b1, b2) => (a ++ '/' :: b1, b2)
      | none => (p, [])
    | none =>
      match splitAtFirst ';' p with
      | some (p1, p2) => (p1, p2)
      | none => (p, [])
  else (p, [])

/-- Result of CPython `urlparse` (`urlsplit` plus params splitting). -/
structure ParseResult where
  scheme : Str
  netloc : Str
  path : Str
  params : Str
  query : Str
  fragment : Str
deriving DecidableEq

/-- CPython `urllib.parse.urlparse`. -/
def urlparseList (u : Str) : ParseResult :=
  let s := urlsplitList u
  let pp := splitparamsPair s.path
  ⟨s.scheme, s.netloc, pp.1, pp.2, s.query, s.fragment⟩

/-- `SitemapGenerator.normalize_url` (sitemapper.py lines 54-61):
`path = parsed.path.rstrip('/')`, then
`f"{parsed.scheme}://{parsed.netloc}{path}"`, appending `?query` when the
query is nonempty. -/
def normalize_url (u : Str) : Str :=
  let parsed := urlparseList u
  parsed.scheme ++ ':' :: '/' :: '/' :: (parsed.netloc ++ rstripSlash parsed.path)
    ++ (if parsed.query.isEmpty then [] else '?' :: parsed.query)

/-- The part of `normalize_url` downstream of the scheme and netloc splits:
given the parsed scheme, netloc and the remaining text, produce the
normalized URL.  `normalize_url u` unfolds to `normTail` applied to the
stage results; this decomposition is only used to organize proofs. -/
def normTail (S n rest2 : Str) : Str :=
  let fr := fragSplit rest2
  let qr := querySplit fr.1
  let pp := splitparamsPair qr.1
  S ++ ':' :: '/' :: '/' :: (n ++ rstripSlash pp.1)
    ++ (if qr.2.isEmpty then [] else '?' :: qr.2)

/-- Modelled from the spec: the spec's reading of `normalize_url`, which
"strips a single trailing slash from the path component only" (instead of
the `rstrip('/')` in the code, which strips every trailing slash); all other
components are treated exactly as the code does.  Used only to compare the
spec's words with the code. -/
def normalizeSpecSingle (u : Str) : Str :=
  let parsed := urlparseList u
  let p := if parsed.path.getLast? = some '/' then parsed.path.dropLast else parsed.path
  parsed.scheme ++ ':' :: '/' :: '/' :: (parsed.netloc ++ p)
    ++ (if parsed.query.isEmpty then [] else '?' :: parsed.query)

/-- `SitemapGenerator.get_base_domain` (lines 48-52): strip one leading
`www.`. -/
def get_base_domain (domain : Str) : Str :=
  if isPfx "www.".toList domain then domain.drop 4 else domain

/-- The crawler's configuration, as set up by `SitemapGenerator.__init__`
(lines 28-46).  The delay and HTTP session are not part of the data model. -/
structure Config where
  base_url : Str
  domain : Str
  scheme : Str
  base_domain : Str
  ignore_woocommerce_urls : Bool

/-- `SitemapGenerator.__init__` (lines 28-46): prefix `https://` when no
scheme is given, normalize the base URL, and derive the base domain from the
(unnormalized) prefixed URL. -/
def mkGenerator (base_url0 : Str) (woo : Bool) : Config :=
  let b :=
    if isPfx "http://".toList base_url0 || isPfx "https://".toList base_url0
    then base_url0 else "https://".toList ++ base_url0
  let pb := urlparseList b
  ⟨normalize_url b, pb.netloc, pb.scheme, get_base_domain pb.netloc, woo⟩

/-- `SitemapGenerator.is_same_domain` (lines 63-70). -/
def is_same_domain (cfg : Config) (url : Str) : Bool :=
  decide (get_base_domain (urlparseList url).netloc = cfg.base_domain)

/-- WooCommerce action terms (line 317). -/
def woocommerceTerms : List Str :=
  ["cart", "wishlist", "checkout", "add-to-cart", "my-account"].map String.toList

/-- `SitemapGenerator.woocommerce_ignore_cart_urls` (lines 315-334). -/
def woocommerce_ignore_cart_urls (url : Str) : Bool :=
  let parsed := urlparseList url
  (woocommerceTerms.any fun t => containsSub t (lowerStr parsed.path)) ||
    (decide ('?' ∈ url) && woocommerceTerms.any fun t => containsSub t (lowerStr url))

/-- Non-content infrastructure patterns (lines 85-93), matched as substrings
of the lower-cased URL. -/
def nonContentPatterns : List Str :=
  ["cdn-cgi/l/email-protection", "/cdn-cgi/", "wp-json/", "xmlrpc.php",
   "feed/", ".xml", ".rss"].map String.toList

/-- File extensions ignored by the crawler (lines 97-101 and 105). -/
def ignoredExtensions : List Str :=
  [".pdf", ".jpg", ".jpeg", ".png", ".gif", ".zip", ".webp", ".mp4",
   ".mpeg", ".svg", ".css", ".js", ".ico", ".woff", ".woff2", ".ttf",
   ".eot"].map String.toList

/-- The regex `\.(pdf|...|eot)(\?|$|/)` of line 105 as a boolean search:
some listed extension occurs preceded by `.` and followed by `?`, `/`, or
the end of the string. -/
def extRegexHit (s : Str) : Bool :=
  ignoredExtensions.any fun e =>
    containsSub (e ++ ['?']) s || containsSub (e ++ ['/']) s || isSfx e s

/-- `SitemapGenerator.is_valid_url` (lines 72-108). -/
def is_valid_url (cfg : Config) (url : Str) : Bool :=
  let parsed := urlparseList url
  if !is_same_domain cfg url then false
  else if cfg.ignore_woocommerce_urls && woocommerce_ignore_cart_urls url then false
  else if nonContentPatterns.any (fun p => containsSub p (lowerStr url)) then false
  else if ignoredExtensions.any (fun e => isSfx e (lowerStr parsed.path)) then false
  else if extRegexHit (lowerStr url) then false
  else decide (parsed.scheme = "http".toList) || decide (parsed.scheme = "https".toList)

/-- `SitemapGenerator.ignore_anchored_links` (lines 110-112):
`url.split('#')[0]`. -/
def ignore_anchored_links (url : Str) : Str :=
  match splitAtFirst '#' url with
  | some (a, _) => a
  | none => url

/-- What the HTML capability (BeautifulSoup) yields for one fetched page:
`title` is `soup.find('title').string` (`none` when the tag is absent or has
no string), `h1` is the text of the first `h1` (`none` when absent), and
`hrefs` are the `href` attributes of all anchors, in document order. -/
structure PageContent where
  title : Option Str
  h1 : Option Str
  hrefs : List Str

/-- The per-page record stored in `self.page_data` (lines 141-145). -/
structure PageRecord where
  seo_title : Str
  h1_content : Str
  lastmod : Str
deriving DecidableEq

/-- `self.page_data`: a map from URL to record. -/
def PageData := Str → Option PageRecord

/-- `SitemapGenerator.extract_seo_title_and_h1` (lines 114-129). -/
def extract_seo_title_and_h1 (pg : PageContent) : Str × Str :=
  (match pg.title with
   | some s => if s.isEmpty then "No SEO title found".toList else stripStr s
   | none => "No SEO title found".toList,
   match pg.h1 with
   | some s => stripStr s
   | none => "No H1 found".toList)

/-- The hrefs skipped by the link loop (line 156): empty, `javascript:`,
`mailto:`, `tel:` and pure-fragment links. -/
def skipHref (href : Str) : Bool :=
  href.isEmpty || isPfx "javascript:".toList href || isPfx "mailto:".toList href
    || isPfx "tel:".toList href || isPfx "#".toList href

/-- The environment of one crawl run: the configuration plus the external
capabilities the program consumes — `fetch` is the HTTP GET + HTML parse
(`none` models a `requests.RequestException`: transport error, timeout, or
non-2xx status via `raise_for_status`), `join` is `urllib.parse.urljoin`,
and `today` is `datetime.now().strftime('%Y-%m-%d')`. -/
structure CrawlEnv where
  cfg : Config
  fetch : Str → Option PageContent
  join : Str → Str → Str
  today : Str

/-- The link-collection loop of `extract_links_and_titles` (lines 150-179):
strip each href, skip empty/javascript/mailto/tel/fragment links, resolve
against the page URL, drop the anchor, normalize, and keep valid URLs,
deduplicating while preserving first-seen order. -/
def collectLinks (env : CrawlEnv) (page : Str) : List Str → List Str → List Str
  | [], links => links
  | h :: rest, links =>
    let href := stripStr h
    if skipHref href then collectLinks env page rest links
    else
      let full := normalize_url (ignore_anchored_links (env.join page href))
      if is_valid_url env.cfg full && decide (full ∉ links) then
        collectLinks env page rest (links ++ [full])
      else collectLinks env page rest links

/-- `SitemapGenerator.extract_links_and_titles` (lines 131-186).  On fetch
failure (`requests.RequestException`, lines 181-183) no page record is
created and `[]` is returned; on success the record is stored under the page
URL and the collected links are returned. -/
def extract_links_and_titles (env : CrawlEnv) (url : Str) (pd : PageData) :
    PageData × List Str :=
  match env.fetch url with
  | none => (pd, [])
  | some pg =>
    let ts := extract_seo_title_and_h1 pg
    (fun x => if x = url then some ⟨ts.1, ts.2, env.today⟩ else pd x,
     collectLinks env url pg.hrefs [])

/-- The links `extract_links_and_titles` returns for a page (independent of
the record table passed in). -/
def pageLinks (env : CrawlEnv) (url : Str) : List Str :=
  match env.fetch url with
  | none => []
  | some pg => collectLinks env url pg.hrefs []

/-- The cleanup applied to each discovered link before enqueueing
(lines 213-215). -/
def cleanLink (l : Str) : Str := normalize_url (ignore_anchored_links l)

/-- The mutable state of `crawl_website`: the frontier `urls_to_visit`, the
sets `visited_urls` and `all_links`, and the record table `page_data`. -/
structure CrawlState where
  frontier : Finset Str
  visited : Finset Str
  all_links : Finset Str
  page_data : PageData

/-- One pass of the enqueue loop (lines 211-226): clean the link and add it
to the frontier and `all_links` only if it is not visited, not already
queued, valid, and same-domain. -/
def enqueueStep (env : CrawlEnv) (s : CrawlState) (l : Str) : CrawlState :=
  let clean := cleanLink l
  if clean ∉ s.visited ∧ clean ∉ s.frontier ∧ is_valid_url env.cfg clean = true
      ∧ is_same_domain env.cfg clean = true then
    { s with frontier := insert clean s.frontier,
             all_links := insert clean s.all_links }
  else s

/-- The body of one `while` iteration of `crawl_website` (lines 198-233),
stopped after the first `k` discovered links have been offered to the
enqueue loop (`k` large enough gives the complete iteration).  The popped
URL `u` is first removed from the frontier; a URL already visited is
skipped (line 201); otherwise it is marked visited, the page is fetched and
its links processed. -/
def crawlIterPartial (env : CrawlEnv) (u : Str) (s : CrawlState) (k : Nat) :
    CrawlState :=
  if u ∈ s.visited then { s with frontier := s.frontier.erase u }
  else
    let ex := extract_links_and_titles env u s.page_data
    ((ex.2.take k).foldl (enqueueStep env)
      ⟨s.frontier.erase u, insert u s.visited, s.all_links, ex.1⟩)

/-- One complete `while` iteration of `crawl_website` for popped URL `u`. -/
def crawlIter (env : CrawlEnv) (u : Str) (s : CrawlState) : CrawlState :=
  crawlIterPartial env u s (extract_links_and_titles env u s.page_data).2.length

/-- The state at the top of `crawl_website` (lines 194-196): the frontier
holds the normalized base URL; `visited_urls` and `all_links` are cleared;
`page_data` is empty for a fresh generator. -/
def initState (env : CrawlEnv) : CrawlState :=
  ⟨{env.cfg.base_url}, ∅, ∅, fun _ => none⟩

/-- The small-step semantics of the `while` loop (lines 198-233): a step may
fire while the frontier is nonempty and fewer than `maxPages` URLs are
visited; `set.pop()` returns an arbitrary member of the frontier. -/
inductive CrawlStep (env : CrawlEnv) (maxPages : Nat) : CrawlState → CrawlState → Prop
  | step (u : Str) (s : CrawlState) (hu : u ∈ s.frontier)
      (hcard : s.visited.card < maxPages) :
      CrawlStep env maxPages s (crawlIter env u s)

/-- The states a run of `crawl_website` can reach. -/
def Reachable (env : CrawlEnv) (maxPages : Nat) (s : CrawlState) : Prop :=
  Relation.ReflTransGen (CrawlStep env maxPages) (initState env) s

/-- The CSV header row written by `generate_csv` (line 296). -/
def csvHeader : List Str :=
  ["SEO Title", "H1", "Permalinks", "Date Crawled"].map String.toList

/-- Lexicographic boolean order on strings by code point (Python string
comparison used by `sorted`). -/
def lexLe : Str → Str → Bool
  | [], _ => true
  | _ :: _, [] => false
  | a :: as, b :: bs => if a < b then true else if a = b then lexLe as bs else false

/-- The propositional form of `lexLe`, used with `List.insertionSort`. -/
def SLe (a b : Str) : Prop := lexLe a b = true

instance : DecidableRel SLe := fun a b => inferInstanceAs (Decidable (lexLe a b = true))

/-- One data row of the CSV (lines 299-310): SEO title, H1, the
anchor-stripped permalink, and the crawl date, with `Not crawled` sentinels
and the current date when no record exists. -/
def csvRow (pd : PageData) (today : Str) (url : Str) : List Str :=
  let clean := ignore_anchored_links url
  [(match pd url with | some r => r.seo_title | none => "Not crawled".toList),
   (match pd url with | some r => r.h1_content | none => "Not crawled".toList),
   clean,
   (match pd url with | some r => r.lastmod | none => today)]

/-- `SitemapGenerator.generate_csv` (lines 278-313): combine the base URL
with all discovered links, deduplicate after normalization (the Python
`set`), sort ascending, and emit the header row followed by one row per
URL. -/
def generate_csv (cfg : Config) (all_links : List Str) (pd : PageData)
    (today : Str) : List (List Str) :=
  let all_urls := cfg.base_url :: all_links
  let unique := List.insertionSort SLe ((all_urls.map normalize_url).dedup)
  csvHeader :: unique.map (csvRow pd today)

/-- The canonical URLs a page contributes to the queue: the links returned
by `extract_links_and_titles`, after the enqueue loop's own cleanup
(lines 211-215). -/
def discoveredLinks (env : CrawlEnv) (v : Str) : List Str :=
  (pageLinks env v).map cleanLink

/-- Every URL in the visited set or the frontier is the normalized seed or
was discovered as a link on some already-visited page. -/
def GoodProvenance (env : CrawlEnv) (s : CrawlState) : Prop :=
  ∀ x, x ∈ s.visited ∪ s.frontier →
    x = env.cfg.base_url ∨ ∃ v ∈ s.visited, x ∈ discoveredLinks env v

/-- The loop invariant of `crawl_website`: the visited set respects the page
budget, the frontier and the visited set are disjoint, page records exist
only for visited URLs, and every tracked URL has a provenance. -/
def CrawlInv (env : CrawlEnv) (maxPages : Nat) (s : CrawlState) : Prop :=
  s.visited.card ≤ maxPages ∧
    (∀ x ∈ s.frontier, x ∉ s.visited) ∧
    (∀ x, s.page_data x ≠ none → x ∈ s.visited) ∧
    GoodProvenance env s

/-- Concrete configuration used by witnesses: seed `https://example.com`,
WooCommerce filtering off. -/
def wCfg : Config := mkGenerator "https://example.com".toList false

/-- Concrete configuration with WooCommerce filtering on. -/
def wCfgT : Config := mkGenerator "https://example.com".toList true

/-- A concrete page: a title, an H1 and two hrefs. -/
def wPage : PageContent :=
  ⟨some "Home".toList, some "Welcome".toList,
   ["/about".toList, "/about/".toList]⟩

/-- A concrete fetch capability serving only the seed page. -/
def wFetch : Str → Option PageContent :=
  fun u => if u = "https://example.com".toList then some wPage else none

/-- A concrete join capability: resolve absolute paths against the site
root, pass other hrefs through. -/
def wJoin : Str → Str → Str :=
  fun _ href =>
    if isPfx "/".toList href then "https://example.com".toList ++ href else href

/-- A concrete crawl environment for witnesses. -/
def wEnv : CrawlEnv := ⟨wCfg, wFetch, wJoin, "2026-10-12".toList⟩

/-- The state after the first iteration of a run in `wEnv`. -/
def wS1 : CrawlState := crawlIter wEnv "https://example.com".toList (initState wEnv)

/-- An environment in which every fetch fails. -/
def wEnvF : CrawlEnv := ⟨wCfg, fun _ => none, wJoin, "2026-10-12".toList⟩

/-- An environment in which every fetch succeeds but the body is malformed:
no title, no H1, no anchors. -/
def wEnvM : CrawlEnv := ⟨wCfg, fun _ => some ⟨none, none, []⟩, wJoin, "2026-10-12".toList⟩

/-- The state after the first (failing) iteration of a run in `wEnvF`. -/
def wS1F : CrawlState := crawlIter wEnvF "https://example.com".toList (initState wEnvF)

/-! ### Helper lemmas about the string primitives -/

theorem splitAtFirst_not_mem {c : Char} : ∀ {s : Str}, c ∉ s → splitAtFirst c s = none := by
  intro s
  induction s with
  | nil => intro _; rfl
  | cons x rest ih =>
    intro h
    have hx : x ≠ c := fun he => h (he ▸ List.mem_cons_self x rest)
    have hr : c ∉ rest := fun hm => h (List.mem_cons_of_mem x hm)
    simp [splitAtFirst, hx, ih hr]

theorem splitAtFirst_none {c : Char} : ∀ {s : Str}, splitAtFirst c s = none → c ∉ s := by
  intro s
  induction s with
  | nil => intro _; simp
  | cons x rest ih =>
    intro h
    by_cases hx : x = c
    · simp [splitAtFirst, hx] at h
    · simp only [splitAtFirst, if_neg hx, Option.map_eq_none'] at h
      simp [hx, ih h]
      intro he
      exact hx he.symm

theorem splitAtFirst_some {c : Char} :
    ∀ {s l r : Str}, splitAtFirst c s = some (l, r) → s = l ++ c :: r ∧ c ∉ l := by
  intro s
  induction s with
  | nil => intro l r h; simp [splitAtFirst] at h
  | cons x rest ih =>
    intro l r h
    by_cases hx : x = c
    · simp only [splitAtFirst, if_pos hx, Option.some_inj, Prod.mk.injEq] at h
      obtain ⟨hl, hr⟩ := h
      subst hl; subst hr; subst hx
      simp
    · simp only [splitAtFirst, if_neg hx, Option.map_eq_some'] at h
      obtain ⟨⟨p1, p2⟩, hsplit, hf⟩ := h
      obtain ⟨hl, hr⟩ := Prod.mk.injEq .. ▸ hf
      obtain ⟨hrest, hnm⟩ := ih hsplit
      subst hr
      constructor
      · rw [← hl, hrest]; rfl
      · rw [← hl]
        intro hm
        rcases List.mem_cons.1 hm with h1 | h1
        · exact hx h1.symm
        · exact hnm h1

theorem splitAtFirst_append_not_mem {c : Char} :
    ∀ {a : Str}, c ∉ a → ∀ (b : Str), splitAtFirst c (a ++ c :: b) = some (a, b) := by
  intro a
  induction a with
  | nil => intro _ b; simp [splitAtFirst]
  | cons x rest ih =>
    intro h b
    have hx : x ≠ c := fun he => h (he ▸ List.mem_cons_self x rest)
    have hr : c ∉ rest := fun hm => h (List.mem_cons_of_mem x hm)
    simp [splitAtFirst, hx, ih hr b]

theorem splitAtFirst_some_append {c : Char} {s l r : Str}
    (h : splitAtFirst c s = some (l, r)) (t : Str) :
    splitAtFirst c (s ++ t) = some (l, r ++ t) := by
  obtain ⟨hs, hnm⟩ := splitAtFirst_some h
  subst hs
  rw [List.append_assoc, List.cons_append]
  exact splitAtFirst_append_not_mem hnm (r ++ t)

theorem takeWhile_append_all {p : Char → Bool} :
    ∀ {a : Str}, (∀ x ∈ a, p x = true) → ∀ (b : Str),
      (a ++ b).takeWhile p = a ++ b.takeWhile p := by
  intro a
  induction a with
  | nil => intro _ b; rfl
  | cons x rest ih =>
    intro h b
    have hx : p x = true := h x (List.mem_cons_self x rest)
    have hr : ∀ y ∈ rest, p y = true := fun y hy => h y (List.mem_cons_of_mem x hy)
    simp [List.takeWhile_cons, hx, ih hr b]

theorem dropWhile_append_all {p : Char → Bool} :
    ∀ {a : Str}, (∀ x ∈ a, p x = true) → ∀ (b : Str),
      (a ++ b).dropWhile p = b.dropWhile p := by
  intro a
  induction a with
  | nil => intro _ b; rfl
  | cons x rest ih =>
    intro h b
    have hx : p x = true := h x (List.mem_cons_self x rest)
    have hr : ∀ y ∈ rest, p y = true := fun y hy => h y (List.mem_cons_of_mem x hy)
    simp [List.dropWhile_cons, hx, ih hr b]

theorem takeWhile_append_stop {p : Char → Bool} {x : Char} (hx : p x = false) :
    ∀ (a b : Str), (a ++ x :: b).takeWhile p = a.takeWhile p := by
  intro a
  induction a with
  | nil => intro b; simp [List.takeWhile_cons, hx]
  | cons y rest ih =>
    intro b
    by_cases hy : p y
    · simp [List.takeWhile_cons, hy, ih b]
    · simp [List.takeWhile_cons, hy]

theorem dropWhile_append_stop {p : Char → Bool} {x : Char} (hx : p x = false) :
    ∀ (a b : Str), (a ++ x :: b).dropWhile p = a.dropWhile p ++ x :: b := by
  intro a
  induction a with
  | nil => intro b; simp [List.dropWhile_cons, hx]
  | cons y rest ih =>
    intro b
    by_cases hy : p y
    · simp [List.dropWhile_cons, hy, ih b]
    · simp [List.dropWhile_cons, hy]

theorem mem_of_mem_dropWhile {p : Char → Bool} {x : Char} {l : Str}
    (h : x ∈ l.dropWhile p) : x ∈ l :=
  (List.dropWhile_sublist p).mem h

theorem mem_of_mem_takeWhile {p : Char → Bool} {x : Char} {l : Str}
    (h : x ∈ l.takeWhile p) : x ∈ l :=
  (List.takeWhile_sublist p).mem h

theorem dropWhile_head?_false {p : Char → Bool} :
    ∀ {l : Str} {x : Char}, (l.dropWhile p).head? = some x → p x = false := by
  intro l
  induction l with
  | nil => intro x h; simp at h
  | cons y rest ih =>
    intro x h
    by_cases hy : p y
    · rw [List.dropWhile_cons, if_pos hy] at h
      exact ih h
    · rw [List.dropWhile_cons, if_neg hy] at h
      simp only [List.head?_cons, Option.some_inj] at h
      subst h
      exact Bool.eq_false_iff.2 hy

/-! ### Helper lemmas about `rstripSlash` -/

theorem rstripSlash_append_slash (p : Str) : rstripSlash (p ++ ['/']) = rstripSlash p := by
  simp [rstripSlash, List.reverse_append, List.dropWhile_cons]

theorem rstripSlash_eq_self {p : Str} (h : p.getLast? ≠ some '/') : rstripSlash p = p := by
  unfold rstripSlash
  rcases hrev : p.reverse with _ | ⟨x, t⟩
  · simpa using congrArg List.reverse hrev
  · have hx : p.getLast? = some x := by
      rw [← List.head?_reverse, hrev, List.head?_cons]
    have hxs : x ≠ '/' := fun he => h (he ▸ hx)
    have : (x == '/') = false := by simp [hxs]
    rw [List.dropWhile_cons, this]
    simp only [Bool.false_eq_true, if_false]
    rw [← hrev, List.reverse_reverse]

theorem rstripSlash_getLast? (p : Str) :
    rstripSlash p = [] ∨ (rstripSlash p).getLast? ≠ some '/' := by
  rcases hd : (p.reverse.dropWhile (fun c => c == '/')) with _ | ⟨x, t⟩
  · left; simp [rstripSlash, hd]
  · right
    have hx : (x == '/') = false := by
      apply dropWhile_head?_false (l := p.reverse) (p := fun c => c == '/')
      rw [hd, List.head?_cons]
    have hxs : x ≠ '/' := by simpa using hx
    unfold rstripSlash
    rw [hd, List.getLast?_reverse, List.head?_cons]
    simp [hxs]

theorem mem_rstripSlash {x : Char} {p : Str} (h : x ∈ rstripSlash p) : x ∈ p := by
  unfold rstripSlash at h
  rw [List.mem_reverse] at h
  have := mem_of_mem_dropWhile h
  rwa [List.mem_reverse] at this

/-! ### Helper lemmas about lower-casing and scheme validity -/

theorem toNat_lowerChar_of_upper {c : Char} (h : 65 ≤ c.toNat ∧ c.toNat ≤ 90) :
    (lowerChar c).toNat = c.toNat + 32 := by
  have hv : (c.toNat + 32).isValidChar := Or.inl (by omega)
  rw [lowerChar, if_pos h]
  simp [Char.ofNat, hv]
  rfl

theorem lowerChar_eq_self {c : Char} (h : ¬(65 ≤ c.toNat ∧ c.toNat ≤ 90)) :
    lowerChar c = c := by
  rw [lowerChar, if_neg h]

theorem lowerChar_idem (c : Char) : lowerChar (lowerChar c) = lowerChar c := by
  by_cases h : 65 ≤ c.toNat ∧ c.toNat ≤ 90
  · have ht := toNat_lowerChar_of_upper h
    apply lowerChar_eq_self
    omega
  · rw [lowerChar_eq_self h, lowerChar_eq_self h]

theorem lowerStr_idem (s : Str) : lowerStr (lowerStr s) = lowerStr s := by
  unfold lowerStr
  rw [List.map_map]
  apply List.map_congr_left
  intro a _
  exact lowerChar_idem a

theorem isAsciiAlpha_lowerChar {c : Char} (h : isAsciiAlpha c = true) :
    isAsciiAlpha (lowerChar c) = true := by
  by_cases hu : 65 ≤ c.toNat ∧ c.toNat ≤ 90
  · have ht := toNat_lowerChar_of_upper hu
    simp only [isAsciiAlpha, Bool.or_eq_true, Bool.and_eq_true, decide_eq_true_eq] at *
    omega
  · rw [lowerChar_eq_self hu]; exact h

theorem isSchemeChar_lowerChar {c : Char} (h : isSchemeChar c = true) :
    isSchemeChar (lowerChar c) = true := by
  by_cases hu : 65 ≤ c.toNat ∧ c.toNat ≤ 90
  · have ht := toNat_lowerChar_of_upper hu
    have : isAsciiAlpha (lowerChar c) = true := by
      simp only [isAsciiAlpha, Bool.or_eq_true, Bool.and_eq_true, decide_eq_true_eq]
      omega
    simp [isSchemeChar, this]
  · rw [lowerChar_eq_self hu]; exact h

theorem validScheme_lowerStr {s : Str} (h : validScheme s = true) :
    validScheme (lowerStr s) = true := by
  match s with
  | [] => simp [validScheme] at h
  | c :: cs =>
    simp only [validScheme, Bool.and_eq_true, List.all_eq_true] at h
    obtain ⟨hc, hcs⟩ := h
    show validScheme (lowerChar c :: cs.map lowerChar) = true
    simp only [validScheme, Bool.and_eq_true, List.all_eq_true]
    refine ⟨isAsciiAlpha_lowerChar hc, ?_⟩
    intro x hx
    rw [List.mem_map] at hx
    obtain ⟨y, hy, hxy⟩ := hx
    subst hxy
    exact isSchemeChar_lowerChar (hcs y hy)

theorem validScheme_chars {s : Str} (h : validScheme s = true) {c : Char}
    (hc : c ∈ s) : isAsciiAlpha c = true ∨ isSchemeChar c = true := by
  match s with
  | [] => simp [validScheme] at h
  | x :: xs =>
    simp only [validScheme, Bool.and_eq_true, List.all_eq_true] at h
    rcases List.mem_cons.1 hc with h1 | h1
    · exact Or.inl (h1 ▸ h.1)
    · exact Or.inr (h.2 c h1)

theorem validScheme_not_mem {s : Str} (h : validScheme s = true) {c : Char}
    (ha : isAsciiAlpha c = false) (hs : isSchemeChar c = false) : c ∉ s := by
  intro hc
  rcases validScheme_chars h hc with h1 | h1
  · rw [ha] at h1; exact Bool.false_ne_true h1
  · rw [hs] at h1; exact Bool.false_ne_true h1

theorem validScheme_false_of_mem {s : Str} {c : Char} (hc : c ∈ s)
    (ha : isAsciiAlpha c = false) (hs : isSchemeChar c = false) :
    validScheme s = false := by
  cases hvs : validScheme s with
  | false => rfl
  | true => exact absurd hc (validScheme_not_mem hvs ha hs)

/-! ### Parser stage lemmas -/

theorem normalize_decomp (u : Str) :
    normalize_url u =
      normTail (schemeSplit u).1 (netlocSplit (schemeSplit u).2).1
        (netlocSplit (schemeSplit u).2).2 := rfl

theorem schemeSplit_eq_none {u : Str} (h : splitAtFirst ':' u = none) :
    schemeSplit u = ([], u) := by
  unfold schemeSplit; rw [h]

theorem schemeSplit_eq_some {u pre post : Str} (h : splitAtFirst ':' u = some (pre, post)) :
    schemeSplit u = if validScheme pre then (lowerStr pre, post) else ([], u) := by
  unfold schemeSplit; rw [h]

theorem fragSplit_eq_none {r : Str} (h : splitAtFirst '#' r = none) :
    fragSplit r = (r, []) := by
  unfold fragSplit; rw [h]

theorem fragSplit_eq_some {r a b : Str} (h : splitAtFirst '#' r = some (a, b)) :
    fragSplit r = (a, b) := by
  unfold fragSplit; rw [h]

theorem querySplit_eq_none {r : Str} (h : splitAtFirst '?' r = none) :
    querySplit r = (r, []) := by
  unfold querySplit; rw [h]

theorem querySplit_eq_some {r a b : Str} (h : splitAtFirst '?' r = some (a, b)) :
    querySplit r = (a, b) := by
  unfold querySplit; rw [h]

theorem mem_schemeSplit_snd {u : Str} {x : Char} (h : x ∈ (schemeSplit u).2) : x ∈ u := by
  rcases hsp : splitAtFirst ':' u with _ | ⟨pre, post⟩
  · rw [schemeSplit_eq_none hsp] at h; exact h
  · rw [schemeSplit_eq_some hsp] at h
    by_cases hv : validScheme pre = true
    · rw [if_pos hv] at h
      obtain ⟨hu, _⟩ := splitAtFirst_some hsp
      rw [hu]
      exact List.mem_append_right _ (List.mem_cons_of_mem _ h)
    · rw [if_neg hv] at h; exact h

theorem mem_netlocSplit_snd {a : Str} {x : Char} (h : x ∈ (netlocSplit a).2) : x ∈ a := by
  unfold netlocSplit at h
  by_cases hc : a.take 2 = ['/', '/']
  · rw [if_pos hc] at h
    have := mem_of_mem_dropWhile h
    exact (List.drop_sublist 2 a).mem this
  · rw [if_neg hc] at h; exact h

theorem netlocSplit_fst_ok {a : Str} {x : Char} (h : x ∈ (netlocSplit a).1) : nlOk x = true := by
  unfold netlocSplit at h
  by_cases hc : a.take 2 = ['/', '/']
  · rw [if_pos hc] at h
    exact List.mem_takeWhile_imp h
  · rw [if_neg hc] at h
    simp at h

theorem fragSplit_fst_not_hash {r : Str} : '#' ∉ (fragSplit r).1 := by
  rcases hsp : splitAtFirst '#' r with _ | ⟨a, b⟩
  · rw [fragSplit_eq_none hsp]; exact splitAtFirst_none hsp
  · rw [fragSplit_eq_some hsp]; exact (splitAtFirst_some hsp).2

theorem querySplit_fst_not_qm {r : Str} : '?' ∉ (querySplit r).1 := by
  rcases hsp : splitAtFirst '?' r with _ | ⟨a, b⟩
  · rw [querySplit_eq_none hsp]; exact splitAtFirst_none hsp
  · rw [querySplit_eq_some hsp]; exact (splitAtFirst_some hsp).2

theorem mem_querySplit_fst {r : Str} {x : Char} (h : x ∈ (querySplit r).1) : x ∈ r := by
  rcases hsp : splitAtFirst '?' r with _ | ⟨a, b⟩
  · rw [querySplit_eq_none hsp] at h; exact h
  · rw [querySplit_eq_some hsp] at h
    obtain ⟨hu, _⟩ := splitAtFirst_some hsp
    rw [hu]
    exact List.mem_append_left _ h

theorem mem_querySplit_snd {r : Str} {x : Char} (h : x ∈ (querySplit r).2) : x ∈ r := by
  rcases hsp : splitAtFirst '?' r with _ | ⟨a, b⟩
  · rw [querySplit_eq_none hsp] at h; simp at h
  · rw [querySplit_eq_some hsp] at h
    obtain ⟨hu, _⟩ := splitAtFirst_some hsp
    rw [hu]
    exact List.mem_append_right _ (List.mem_cons_of_mem _ h)

theorem splitAtLast_some {c : Char} {s a b : Str} (h : splitAtLast c s = some (a, b)) :
    s = a ++ c :: b ∧ c ∉ b := by
  unfold splitAtLast at h
  rcases hsp : splitAtFirst c s.reverse with _ | ⟨x, y⟩
  · rw [hsp] at h; simp at h
  · rw [hsp] at h
    simp only [Option.some_inj, Prod.mk.injEq] at h
    obtain ⟨ha, hb⟩ := h
    obtain ⟨hrev, hnm⟩ := splitAtFirst_some hsp
    constructor
    · have : s = (x ++ c :: y).reverse := by rw [← hrev, List.reverse_reverse]
      rw [this, List.reverse_append, List.reverse_cons, List.append_assoc, ← ha, ← hb]
      simp
    · rw [← hb]
      intro hm
      exact hnm (List.mem_reverse.1 hm)

theorem splitparams_eq_slash_some {p a b b1 b2 : Str} (hm : ';' ∈ p)
    (hl : splitAtLast '/' p = some (a, b))
    (hf : splitAtFirst ';' b = some (b1, b2)) :
    splitparamsPair p = (a ++ '/' :: b1, b2) := by
  unfold splitparamsPair; rw [if_pos hm, hl]; dsimp only; rw [hf]

theorem splitparams_eq_slash_none {p a b : Str} (hm : ';' ∈ p)
    (hl : splitAtLast '/' p = some (a, b))
    (hf : splitAtFirst ';' b = none) :
    splitparamsPair p = (p, []) := by
  unfold splitparamsPair; rw [if_pos hm, hl]; dsimp only; rw [hf]

theorem splitparams_eq_noslash_some {p p1 p2 : Str} (hm : ';' ∈ p)
    (hl : splitAtLast '/' p = none)
    (hf : splitAtFirst ';' p = some (p1, p2)) :
    splitparamsPair p = (p1, p2) := by
  unfold splitparamsPair; rw [if_pos hm, hl]; dsimp only; rw [hf]

theorem splitparams_eq_noslash_none {p : Str} (hm : ';' ∈ p)
    (hl : splitAtLast '/' p = none)
    (hf : splitAtFirst ';' p = none) :
    splitparamsPair p = (p, []) := by
  unfold splitparamsPair; rw [if_pos hm, hl]; dsimp only; rw [hf]

theorem mem_splitparams_fst {p : Str} {x : Char} (h : x ∈ (splitparamsPair p).1) : x ∈ p := by
  by_cases hm : ';' ∈ p
  · rcases hl : splitAtLast '/' p with _ | ⟨a, b⟩
    · rcases hf : splitAtFirst ';' p with _ | ⟨p1, p2⟩
      · rw [splitparams_eq_noslash_none hm hl hf] at h; exact h
      · rw [splitparams_eq_noslash_some hm hl hf] at h
        obtain ⟨hu, _⟩ := splitAtFirst_some hf
        rw [hu]
        exact List.mem_append_left _ h
    · obtain ⟨hu, _⟩ := splitAtLast_some hl
      rcases hf : splitAtFirst ';' b with _ | ⟨b1, b2⟩
      · rw [splitparams_eq_slash_none hm hl hf] at h; exact h
      · rw [splitparams_eq_slash_some hm hl hf] at h
        obtain ⟨hb, _⟩ := splitAtFirst_some hf
        rw [hu, hb]
        rcases List.mem_append.1 h with h1 | h1
        · exact List.mem_append_left _ h1
        · rcases List.mem_cons.1 h1 with h2 | h2
          · exact List.mem_append_right _ (h2 ▸ List.mem_cons_self _ _)
          · exact List.mem_append_right _
              (List.mem_cons_of_mem _ (List.mem_append_left _ h2))
  · unfold splitparamsPair at h
    rw [if_neg hm] at h; exact h

theorem splitparams_not_mem {p : Str} (h : ';' ∉ p) : splitparamsPair p = (p, []) := by
  unfold splitparamsPair
  rw [if_neg h]

/-! ### Appending a fragment or a trailing slash through the parser stages -/

theorem mem_left_of_append_cons_eq {l r pre post : Str} {x y : Char}
    (h : l ++ x :: r = pre ++ y :: post) (hxy : x ≠ y) (hyl : y ∉ l) : x ∈ pre := by
  induction l generalizing pre with
  | nil =>
    cases pre with
    | nil =>
      simp only [List.nil_append, List.cons.injEq] at h
      exact absurd h.1 hxy
    | cons p ps =>
      simp only [List.nil_append, List.cons_append, List.cons.injEq] at h
      exact h.1 ▸ List.mem_cons_self _ _
  | cons a l' ih =>
    cases pre with
    | nil =>
      simp only [List.cons_append, List.nil_append, List.cons.injEq] at h
      exact absurd (h.1 ▸ List.mem_cons_self a l') hyl
    | cons p ps =>
      simp only [List.cons_append, List.cons.injEq] at h
      have hyl' : y ∉ l' := fun hm => hyl (List.mem_cons_of_mem a hm)
      exact List.mem_cons_of_mem p (ih h.2 hyl')

theorem schemeSplit_hash_append (l r : Str) :
    schemeSplit (l ++ '#' :: r) = ((schemeSplit l).1, (schemeSplit l).2 ++ '#' :: r) := by
  rcases hsp : splitAtFirst ':' l with _ | ⟨pre, post⟩
  · have hcl : ':' ∉ l := splitAtFirst_none hsp
    rw [schemeSplit_eq_none hsp]
    rcases hsp2 : splitAtFirst ':' (l ++ '#' :: r) with _ | ⟨pre2, post2⟩
    · rw [schemeSplit_eq_none hsp2]
    · obtain ⟨heq, _⟩ := splitAtFirst_some hsp2
      have hmem : '#' ∈ pre2 :=
        mem_left_of_append_cons_eq heq (by decide) hcl
      have hbad : validScheme pre2 = false :=
        validScheme_false_of_mem hmem (by decide) (by decide)
      rw [schemeSplit_eq_some hsp2, hbad]
      simp
  · rw [schemeSplit_eq_some hsp,
        schemeSplit_eq_some (splitAtFirst_some_append hsp ('#' :: r))]
    by_cases hv : validScheme pre = true
    · rw [if_pos hv, if_pos hv]
    · rw [if_neg hv, if_neg hv]

theorem netlocSplit_hash_append {a : Str} (ha : '#' ∉ a) (r : Str) :
    netlocSplit (a ++ '#' :: r) = ((netlocSplit a).1, (netlocSplit a).2 ++ '#' :: r) := by
  match a with
  | [] =>
    have h1 : (('#' :: r).take 2 = ['/', '/']) = False := by
      simp only [List.take_succ_cons, eq_iff_iff, iff_false]
      intro hc
      exact absurd (List.cons.injEq .. ▸ hc).1 (by decide)
    unfold netlocSplit
    simp only [List.nil_append, h1]
    simp
  | [x] =>
    unfold netlocSplit
    have h1 : ((x :: '#' :: r).take 2 = ['/', '/']) = False := by
      simp only [List.take_succ_cons, eq_iff_iff, iff_false]
      intro hc
      have := (List.cons.injEq .. ▸ hc).2
      have h2 := (List.cons.injEq .. ▸ this).1
      exact absurd h2 (by decide)
    have h2 : (([x] : Str).take 2 = ['/', '/']) = False := by
      simp
    simp only [List.cons_append, List.nil_append, h1, h2]
    simp
  | c1 :: c2 :: t =>
    have hteq : (c1 :: c2 :: t) ++ '#' :: r = c1 :: c2 :: (t ++ '#' :: r) := rfl
    unfold netlocSplit
    rw [hteq]
    by_cases hc : [c1, c2] = (['/', '/'] : Str)
    · have h1 : (c1 :: c2 :: (t ++ '#' :: r)).take 2 = ['/', '/'] := by
        simpa [List.take] using hc
      have h2 : (c1 :: c2 :: t).take 2 = ['/', '/'] := by
        simpa [List.take] using hc
      rw [if_pos h1, if_pos h2]
      have hna : nlOk '#' = false := by decide
      simp only [List.drop_succ_cons, List.drop_zero]
      rw [takeWhile_append_stop hna, dropWhile_append_stop hna]
    · have h1 : ¬((c1 :: c2 :: (t ++ '#' :: r)).take 2 = ['/', '/']) := by
        simpa [List.take] using hc
      have h2 : ¬((c1 :: c2 :: t).take 2 = ['/', '/']) := by
        simpa [List.take] using hc
      rw [if_neg h1, if_neg h2]
      rfl

theorem normTail_hash_append {S n b : Str} (hb : '#' ∉ b) (r : Str) :
    normTail S n (b ++ '#' :: r) = normTail S n b := by
  unfold normTail
  rw [fragSplit_eq_some (splitAtFirst_append_not_mem hb r),
      fragSplit_eq_none (splitAtFirst_not_mem hb)]

theorem normalize_hash_append {u : Str} (h : '#' ∉ u) (r : Str) :
    normalize_url (u ++ '#' :: r) = normalize_url u := by
  rw [normalize_decomp, normalize_decomp]
  rw [schemeSplit_hash_append u r]
  have h2 : '#' ∉ (schemeSplit u).2 := fun hm => h (mem_schemeSplit_snd hm)
  rw [netlocSplit_hash_append h2 r]
  exact normTail_hash_append (fun hm => h2 (mem_netlocSplit_snd hm)) r

theorem normalize_ignore_anchored (u : Str) :
    normalize_url (ignore_anchored_links u) = normalize_url u := by
  unfold ignore_anchored_links
  rcases hsp : splitAtFirst '#' u with _ | ⟨l, r⟩
  · rfl
  · obtain ⟨hu, hnm⟩ := splitAtFirst_some hsp
    rw [hu]
    exact (normalize_hash_append hnm r).symm

theorem schemeSplit_single_append {d : Char} (hd : d ≠ ':') (u : Str) :
    schemeSplit (u ++ [d]) = ((schemeSplit u).1, (schemeSplit u).2 ++ [d]) := by
  rcases hsp : splitAtFirst ':' u with _ | ⟨pre, post⟩
  · have hcl : ':' ∉ u := splitAtFirst_none hsp
    have hcl2 : ':' ∉ u ++ [d] := by
      intro hm
      rcases List.mem_append.1 hm with h1 | h1
      · exact hcl h1
      · rcases List.mem_cons.1 h1 with h2 | h2
        · exact hd h2.symm
        · simp at h2
    rw [schemeSplit_eq_none hsp, schemeSplit_eq_none (splitAtFirst_not_mem hcl2)]
  · rw [schemeSplit_eq_some hsp,
        schemeSplit_eq_some (splitAtFirst_some_append hsp [d])]
    by_cases hv : validScheme pre = true
    · rw [if_pos hv, if_pos hv]
    · rw [if_neg hv, if_neg hv]

theorem netlocSplit_dslash (X : Str) :
    netlocSplit ('/' :: '/' :: X) = (X.takeWhile nlOk, X.dropWhile nlOk) := by
  unfold netlocSplit
  rw [if_pos (show List.take 2 ('/' :: '/' :: X) = ['/', '/'] from rfl)]
  rfl

theorem netlocSplit_nodslash {X : Str} (h : X.take 2 ≠ ['/', '/']) :
    netlocSplit X = ([], X) := by
  unfold netlocSplit; rw [if_neg h]

theorem normTail_slash_append {S n b : Str} (h1 : '#' ∉ b) (h2 : '?' ∉ b)
    (h3 : ';' ∉ b) : normTail S n (b ++ ['/']) = normTail S n b := by
  have hb1 : '#' ∉ b ++ ['/'] := by
    intro hm
    rcases List.mem_append.1 hm with hx | hx
    · exact h1 hx
    · simp at hx
  have hb2 : '?' ∉ b ++ ['/'] := by
    intro hm
    rcases List.mem_append.1 hm with hx | hx
    · exact h2 hx
    · simp at hx
  have hb3 : ';' ∉ b ++ ['/'] := by
    intro hm
    rcases List.mem_append.1 hm with hx | hx
    · exact h3 hx
    · simp at hx
  unfold normTail
  rw [fragSplit_eq_none (splitAtFirst_not_mem hb1),
      fragSplit_eq_none (splitAtFirst_not_mem h1)]
  dsimp only
  rw [querySplit_eq_none (splitAtFirst_not_mem hb2),
      querySplit_eq_none (splitAtFirst_not_mem h2)]
  dsimp only
  rw [splitparams_not_mem hb3, splitparams_not_mem h3]
  dsimp only
  rw [rstripSlash_append_slash b]

theorem normalize_slash_core {S a : Str} (ha1 : '#' ∉ a) (ha2 : '?' ∉ a)
    (ha3 : ';' ∉ a) :
    normTail S (netlocSplit (a ++ ['/'])).1 (netlocSplit (a ++ ['/'])).2
      = normTail S (netlocSplit a).1 (netlocSplit a).2 := by
  rcases a with _ | ⟨c1, rest1⟩
  · rw [netlocSplit_nodslash (X := [] ++ ['/']) (by decide),
        netlocSplit_nodslash (X := ([] : Str)) (by decide)]
    exact normTail_slash_append (by decide) (by decide) (by decide)
  · rcases rest1 with _ | ⟨c2, t⟩
    · by_cases hc1 : c1 = '/'
      · subst hc1
        have he : ([('/' : Char)] : Str) ++ ['/'] = '/' :: '/' :: [] := rfl
        rw [he, netlocSplit_dslash,
            netlocSplit_nodslash (X := [('/' : Char)]) (by decide)]
        dsimp only
        exact (normTail_slash_append (by decide) (by decide) (by decide)).symm
      · have hn1 : (([c1] : Str) ++ ['/']).take 2 ≠ ['/', '/'] := by
          intro hx
          simp [List.take] at hx
          exact hc1 hx
        have hn2 : (([c1] : Str)).take 2 ≠ ['/', '/'] := by
          simp [List.take]
        rw [netlocSplit_nodslash hn1, netlocSplit_nodslash hn2]
        exact normTail_slash_append ha1 ha2 ha3
    · by_cases hc : c1 = '/' ∧ c2 = '/'
      · obtain ⟨g1, g2⟩ := hc
        subst g1; subst g2
        have he : ('/' :: '/' :: t) ++ ['/'] = '/' :: '/' :: (t ++ ['/']) := rfl
        rw [he, netlocSplit_dslash, netlocSplit_dslash]
        dsimp only
        have hna : nlOk '/' = false := by decide
        have htw : (t ++ ['/']).takeWhile nlOk = t.takeWhile nlOk := by
          have he2 : t ++ ['/'] = t ++ '/' :: [] := rfl
          rw [he2, takeWhile_append_stop hna]
        have hdw : (t ++ ['/']).dropWhile nlOk = t.dropWhile nlOk ++ ['/'] := by
          have he2 : t ++ ['/'] = t ++ '/' :: [] := rfl
          rw [he2, dropWhile_append_stop hna]
        rw [htw, hdw]
        apply normTail_slash_append
        · intro hm
          exact ha1 (List.mem_cons_of_mem _ (List.mem_cons_of_mem _ (mem_of_mem_dropWhile hm)))
        · intro hm
          exact ha2 (List.mem_cons_of_mem _ (List.mem_cons_of_mem _ (mem_of_mem_dropWhile hm)))
        · intro hm
          exact ha3 (List.mem_cons_of_mem _ (List.mem_cons_of_mem _ (mem_of_mem_dropWhile hm)))
      · have hn1 : ((c1 :: c2 :: t) ++ ['/']).take 2 ≠ ['/', '/'] := by
          intro hx
          simp [List.take] at hx
          exact hc hx
        have hn2 : (c1 :: c2 :: t).take 2 ≠ ['/', '/'] := by
          intro hx
          simp [List.take] at hx
          exact hc hx
        rw [netlocSplit_nodslash hn1, netlocSplit_nodslash hn2]
        exact normTail_slash_append ha1 ha2 ha3

theorem normalize_slash_append {u : Str} (h1 : '#' ∉ u) (h2 : '?' ∉ u)
    (h3 : ';' ∉ u) : normalize_url (u ++ ['/']) = normalize_url u := by
  rw [normalize_decomp, normalize_decomp,
      schemeSplit_single_append (by decide) u]
  exact normalize_slash_core (fun hm => h1 (mem_schemeSplit_snd hm))
    (fun hm => h2 (mem_schemeSplit_snd hm)) (fun hm => h3 (mem_schemeSplit_snd hm))

theorem normalize_replicate_slash {u : Str} (h1 : '#' ∉ u) (h2 : '?' ∉ u)
    (h3 : ';' ∉ u) (k : Nat) :
    normalize_url (u ++ List.replicate k '/') = normalize_url u := by
  induction k with
  | zero => simp
  | succ m ih =>
    have hrep : List.replicate (m + 1) '/' = List.replicate m '/' ++ ['/'] :=
      List.replicate_succ' m '/'
    rw [hrep, ← List.append_assoc]
    have g1 : '#' ∉ u ++ List.replicate m '/' := by
      intro hm
      rcases List.mem_append.1 hm with hx | hx
      · exact h1 hx
      · have := List.eq_of_mem_replicate hx
        simp at this
    have g2 : '?' ∉ u ++ List.replicate m '/' := by
      intro hm
      rcases List.mem_append.1 hm with hx | hx
      · exact h2 hx
      · have := List.eq_of_mem_replicate hx
        simp at this
    have g3 : ';' ∉ u ++ List.replicate m '/' := by
      intro hm
      rcases List.mem_append.1 hm with hx | hx
      · exact h3 hx
      · have := List.eq_of_mem_replicate hx
        simp at this
    rw [normalize_slash_append g1 g2 g3, ih]

/-! ### Re-parsing a normalized URL: the fixed-point lemma -/

theorem normTail_body (S N : Str) {b o : Str} (hb1 : '#' ∉ b) (hb2 : '?' ∉ b)
    (hb3 : ';' ∉ b) (hb4 : rstripSlash b = b)
    (hqo : o = [] ∨ ∃ q, o = '?' :: q ∧ q ≠ [] ∧ '#' ∉ q) :
    normTail S N (b ++ o) = (S ++ ':' :: '/' :: '/' :: (N ++ b)) ++ o := by
  rcases hqo with hq0 | ⟨q, hq, hqne, hqh⟩
  · subst hq0
    unfold normTail
    rw [fragSplit_eq_none (splitAtFirst_not_mem (by simpa using hb1))]
    dsimp only
    rw [querySplit_eq_none (splitAtFirst_not_mem (by simpa using hb2))]
    dsimp only
    rw [splitparams_not_mem (by simpa using hb3)]
    dsimp only
    simp [hb4]
  · subst hq
    have hbq : '#' ∉ b ++ '?' :: q := by
      intro hm
      rcases List.mem_append.1 hm with hx | hx
      · exact hb1 hx
      · rcases List.mem_cons.1 hx with hy | hy
        · exact absurd hy (by decide)
        · exact hqh hy
    unfold normTail
    rw [fragSplit_eq_none (splitAtFirst_not_mem hbq)]
    dsimp only
    rw [querySplit_eq_some (splitAtFirst_append_not_mem hb2 q)]
    dsimp only
    rw [splitparams_not_mem hb3]
    dsimp only
    rw [hb4]
    have hqe : q.isEmpty = false := by
      rcases q with _ | ⟨y, ys⟩
      · exact absurd rfl hqne
      · rfl
    rw [hqe]
    simp

theorem normalize_fixed {S n p o : Str}
    (hS : validScheme S = true) (hSl : lowerStr S = S)
    (hn : ∀ c ∈ n, nlOk c = true)
    (hp1 : '#' ∉ p) (hp2 : '?' ∉ p) (hp3 : ';' ∉ p)
    (hp4 : p.getLast? ≠ some '/')
    (hqo : o = [] ∨ ∃ q, o = '?' :: q ∧ q ≠ [] ∧ '#' ∉ q) :
    normalize_url (S ++ ':' :: '/' :: '/' :: (n ++ (p ++ o)))
      = S ++ ':' :: '/' :: '/' :: (n ++ (p ++ o)) := by
  have hcS : ':' ∉ S := validScheme_not_mem hS (by decide) (by decide)
  have hsp : splitAtFirst ':' (S ++ ':' :: '/' :: '/' :: (n ++ (p ++ o)))
      = some (S, '/' :: '/' :: (n ++ (p ++ o))) :=
    splitAtFirst_append_not_mem hcS _
  rw [normalize_decomp, schemeSplit_eq_some hsp, if_pos hS]
  dsimp only
  rw [hSl, netlocSplit_dslash]
  dsimp only
  rw [takeWhile_append_all hn, dropWhile_append_all hn]
  rcases hdp : p.dropWhile nlOk with _ | ⟨d, ds⟩
  · have hpt : p.takeWhile nlOk = p := by
      have h0 := List.takeWhile_append_dropWhile nlOk p
      rw [hdp, List.append_nil] at h0
      exact h0
    have hall : ∀ x ∈ p, nlOk x = true := fun x hx =>
      List.mem_takeWhile_imp (by rw [hpt]; exact hx)
    rw [takeWhile_append_all hall, dropWhile_append_all hall]
    rcases hqo with hq0 | ⟨q, hq, hqne, hqh⟩
    · subst hq0
      have e1 : List.takeWhile nlOk ([] : Str) = [] := rfl
      have e2 : List.dropWhile nlOk ([] : Str) = [] := rfl
      rw [e1, e2]
      have := normTail_body S (n ++ (p ++ [])) (b := []) (o := [])
        (by simp) (by simp) (by simp) rfl (Or.inl rfl)
      rw [show ([] : Str) ++ [] = [] from rfl] at this
      rw [this]
      simp
    · subst hq
      have e1 : List.takeWhile nlOk ('?' :: q) = [] := by
        simp [List.takeWhile_cons, nlOk]
      have e2 : List.dropWhile nlOk ('?' :: q) = '?' :: q := by
        simp [List.dropWhile_cons, nlOk]
      rw [e1, e2]
      have := normTail_body S (n ++ (p ++ [])) (b := []) (o := '?' :: q)
        (by simp) (by simp) (by simp) rfl (Or.inr ⟨q, rfl, hqne, hqh⟩)
      rw [show ([] : Str) ++ '?' :: q = '?' :: q from rfl] at this
      rw [this]
      simp
  · have hdf : nlOk d = false := by
      apply dropWhile_head?_false (l := p) (p := nlOk)
      rw [hdp]; rfl
    have hsplitp : p = p.takeWhile nlOk ++ d :: ds := by
      have h0 := List.takeWhile_append_dropWhile nlOk p
      rw [hdp] at h0
      exact h0.symm
    have htall : ∀ x ∈ p.takeWhile nlOk, nlOk x = true := fun x hx =>
      List.mem_takeWhile_imp hx
    have hrw : p ++ o = p.takeWhile nlOk ++ (d :: (ds ++ o)) := by
      conv_lhs => rw [hsplitp]
      simp
    have h1 : (p ++ o).takeWhile nlOk = p.takeWhile nlOk := by
      rw [hrw, takeWhile_append_stop hdf]
      have h2 := takeWhile_append_all htall []
      simpa using h2
    have h2 : (p ++ o).dropWhile nlOk = d :: (ds ++ o) := by
      rw [hrw, dropWhile_append_stop hdf]
      have h3 := dropWhile_append_all htall ([] : Str)
      rw [List.append_nil] at h3
      rw [h3.trans (by rfl)]
      rfl
    rw [h1, h2]
    have hb1 : '#' ∉ d :: ds := by
      intro hm
      apply hp1
      rw [hsplitp]
      exact List.mem_append_right _ hm
    have hb2 : '?' ∉ d :: ds := by
      intro hm
      apply hp2
      rw [hsplitp]
      exact List.mem_append_right _ hm
    have hb3 : ';' ∉ d :: ds := by
      intro hm
      apply hp3
      rw [hsplitp]
      exact List.mem_append_right _ hm
    have hb4 : rstripSlash (d :: ds) = d :: ds := by
      apply rstripSlash_eq_self
      have hgl : p.getLast? = (d :: ds).getLast? := by
        conv_lhs => rw [hsplitp]
        exact List.getLast?_append_cons _ d ds
      rw [← hgl]
      exact hp4
    have hbody := normTail_body S (n ++ p.takeWhile nlOk) (b := d :: ds) (o := o)
      hb1 hb2 hb3 hb4 hqo
    rw [show d :: (ds ++ o) = (d :: ds) ++ o from rfl, hbody]
    conv_rhs => rw [hsplitp]
    simp

theorem urlparse_scheme_valid {u : Str} (h : (urlparseList u).scheme ≠ []) :
    validScheme (urlparseList u).scheme = true
      ∧ lowerStr (urlparseList u).scheme = (urlparseList u).scheme := by
  have hsc : (urlparseList u).scheme = (schemeSplit u).1 := rfl
  rcases hsp : splitAtFirst ':' u with _ | ⟨pre, post⟩
  · rw [hsc, schemeSplit_eq_none hsp] at h
    exact absurd rfl h
  · rw [hsc, schemeSplit_eq_some hsp]
    by_cases hv : validScheme pre = true
    · rw [if_pos hv]
      exact ⟨validScheme_lowerStr hv, lowerStr_idem pre⟩
    · rw [hsc, schemeSplit_eq_some hsp, if_neg hv] at h
      exact absurd rfl h

theorem urlparse_netloc_ok {u : Str} {c : Char}
    (h : c ∈ (urlparseList u).netloc) : nlOk c = true :=
  netlocSplit_fst_ok h

theorem urlparse_path_not_hash {u : Str} : '#' ∉ (urlparseList u).path := by
  intro hm
  exact fragSplit_fst_not_hash (mem_querySplit_fst (mem_splitparams_fst hm))

theorem urlparse_path_not_qm {u : Str} : '?' ∉ (urlparseList u).path := by
  intro hm
  exact querySplit_fst_not_qm (mem_splitparams_fst hm)

theorem urlparse_query_not_hash {u : Str} : '#' ∉ (urlparseList u).query := by
  intro hm
  exact fragSplit_fst_not_hash (mem_querySplit_snd hm)

theorem normalize_idem_core {u : Str} (hsch : (urlparseList u).scheme ≠ [])
    (hsemi : ';' ∉ (urlparseList u).path) :
    normalize_url (normalize_url u) = normalize_url u := by
  obtain ⟨hS, hSl⟩ := urlparse_scheme_valid hsch
  have hp1 : '#' ∉ rstripSlash (urlparseList u).path :=
    fun hm => urlparse_path_not_hash (mem_rstripSlash hm)
  have hp2 : '?' ∉ rstripSlash (urlparseList u).path :=
    fun hm => urlparse_path_not_qm (mem_rstripSlash hm)
  have hp3 : ';' ∉ rstripSlash (urlparseList u).path :=
    fun hm => hsemi (mem_rstripSlash hm)
  have hp4 : (rstripSlash (urlparseList u).path).getLast? ≠ some '/' := by
    rcases rstripSlash_getLast? (urlparseList u).path with h0 | h0
    · rw [h0]
      simp
    · exact h0
  have hqo : (if (urlparseList u).query.isEmpty then [] else '?' :: (urlparseList u).query)
      = [] ∨ ∃ q, (if (urlparseList u).query.isEmpty then [] else '?' :: (urlparseList u).query)
      = '?' :: q ∧ q ≠ [] ∧ '#' ∉ q := by
    rcases hq : (urlparseList u).query with _ | ⟨y, ys⟩
    · left
      simp
    · right
      refine ⟨y :: ys, by simp, by simp, ?_⟩
      rw [← hq]
      exact urlparse_query_not_hash
  have hfix := normalize_fixed (S := (urlparseList u).scheme)
    (n := (urlparseList u).netloc) (p := rstripSlash (urlparseList u).path)
    (o := if (urlparseList u).query.isEmpty then [] else '?' :: (urlparseList u).query)
    hS hSl (fun c hc => urlparse_netloc_ok hc) hp1 hp2 hp3 hp4 hqo
  have hshape : normalize_url u = (urlparseList u).scheme ++ ':' :: '/' :: '/' ::
      ((urlparseList u).netloc ++ (rstripSlash (urlparseList u).path
        ++ (if (urlparseList u).query.isEmpty then [] else '?' :: (urlparseList u).query))) := by
    show ((urlparseList u).scheme ++ ':' :: '/' :: '/' ::
        ((urlparseList u).netloc ++ rstripSlash (urlparseList u).path))
      ++ (if (urlparseList u).query.isEmpty then [] else '?' :: (urlparseList u).query) = _
    simp
  rw [hshape]
  exact hfix

/-! ### Crawl engine lemmas -/

theorem extract_fail {env : CrawlEnv} {u : Str} (pd : PageData)
    (h : env.fetch u = none) : extract_links_and_titles env u pd = (pd, []) := by
  unfold extract_links_and_titles
  rw [h]

theorem extract_snd (env : CrawlEnv) (u : Str) (pd : PageData) :
    (extract_links_and_titles env u pd).2 = pageLinks env u := by
  unfold extract_links_and_titles pageLinks
  rcases hf : env.fetch u with _ | pg
  · rfl
  · rfl

theorem extract_pd_other {env : CrawlEnv} {u x : Str} (pd : PageData) (hx : x ≠ u) :
    (extract_links_and_titles env u pd).1 x = pd x := by
  unfold extract_links_and_titles
  rcases hf : env.fetch u with _ | pg
  · rfl
  · dsimp only
    rw [if_neg hx]

theorem extract_pd_dom {env : CrawlEnv} {u x : Str} (pd : PageData)
    (h : (extract_links_and_titles env u pd).1 x ≠ none) : x = u ∨ pd x ≠ none := by
  by_cases hx : x = u
  · exact Or.inl hx
  · right
    rw [extract_pd_other pd hx] at h
    exact h

theorem enqueueStep_visited (env : CrawlEnv) (s : CrawlState) (l : Str) :
    (enqueueStep env s l).visited = s.visited := by
  unfold enqueueStep
  by_cases h : cleanLink l ∉ s.visited ∧ cleanLink l ∉ s.frontier
      ∧ is_valid_url env.cfg (cleanLink l) = true
      ∧ is_same_domain env.cfg (cleanLink l) = true
  · rw [if_pos h]
  · rw [if_neg h]

theorem enqueueStep_page_data (env : CrawlEnv) (s : CrawlState) (l : Str) :
    (enqueueStep env s l).page_data = s.page_data := by
  unfold enqueueStep
  by_cases h : cleanLink l ∉ s.visited ∧ cleanLink l ∉ s.frontier
      ∧ is_valid_url env.cfg (cleanLink l) = true
      ∧ is_same_domain env.cfg (cleanLink l) = true
  · rw [if_pos h]
  · rw [if_neg h]

theorem enqueueStep_frontier_cases {env : CrawlEnv} {s : CrawlState} {l x : Str}
    (h : x ∈ (enqueueStep env s l).frontier) : x = cleanLink l ∨ x ∈ s.frontier := by
  unfold enqueueStep at h
  by_cases hc : cleanLink l ∉ s.visited ∧ cleanLink l ∉ s.frontier
      ∧ is_valid_url env.cfg (cleanLink l) = true
      ∧ is_same_domain env.cfg (cleanLink l) = true
  · rw [if_pos hc] at h
    exact Finset.mem_insert.1 h
  · rw [if_neg hc] at h
    exact Or.inr h

theorem enqueueStep_pres_disj {env : CrawlEnv} {s : CrawlState} (l : Str)
    (hd : ∀ x ∈ s.frontier, x ∉ s.visited) :
    ∀ x ∈ (enqueueStep env s l).frontier, x ∉ (enqueueStep env s l).visited := by
  intro x hx
  rw [enqueueStep_visited]
  rcases enqueueStep_frontier_cases hx with h1 | h1
  · subst h1
    unfold enqueueStep at hx
    by_cases hc : cleanLink l ∉ s.visited ∧ cleanLink l ∉ s.frontier
        ∧ is_valid_url env.cfg (cleanLink l) = true
        ∧ is_same_domain env.cfg (cleanLink l) = true
    · exact hc.1
    · rw [if_neg hc] at hx
      exact hd _ hx
  · exact hd _ h1

theorem enqueueStep_keep_out {env : CrawlEnv} {s : CrawlState} {u : Str} (l : Str)
    (hv : u ∈ s.visited) (hf : u ∉ s.frontier) :
    u ∉ (enqueueStep env s l).frontier := by
  intro hm
  rcases enqueueStep_frontier_cases hm with h1 | h1
  · subst h1
    unfold enqueueStep at hm
    by_cases hc : cleanLink l ∉ s.visited ∧ cleanLink l ∉ s.frontier
        ∧ is_valid_url env.cfg (cleanLink l) = true
        ∧ is_same_domain env.cfg (cleanLink l) = true
    · exact hc.1 hv
    · rw [if_neg hc] at hm
      exact hf hm
  · exact hf h1

theorem foldl_enqueue_visited (env : CrawlEnv) :
    ∀ (ls : List Str) (s : CrawlState),
      (ls.foldl (enqueueStep env) s).visited = s.visited := by
  intro ls
  induction ls with
  | nil => intro s; rfl
  | cons l rest ih =>
    intro s
    show ((rest.foldl (enqueueStep env) (enqueueStep env s l))).visited = s.visited
    rw [ih (enqueueStep env s l), enqueueStep_visited]

theorem foldl_enqueue_page_data (env : CrawlEnv) :
    ∀ (ls : List Str) (s : CrawlState),
      (ls.foldl (enqueueStep env) s).page_data = s.page_data := by
  intro ls
  induction ls with
  | nil => intro s; rfl
  | cons l rest ih =>
    intro s
    show ((rest.foldl (enqueueStep env) (enqueueStep env s l))).page_data = s.page_data
    rw [ih (enqueueStep env s l), enqueueStep_page_data]

theorem foldl_enqueue_frontier_cases {env : CrawlEnv} :
    ∀ {ls : List Str} {s : CrawlState} {x : Str},
      x ∈ (ls.foldl (enqueueStep env) s).frontier →
      x ∈ s.frontier ∨ ∃ l ∈ ls, x = cleanLink l := by
  intro ls
  induction ls with
  | nil => intro s x h; exact Or.inl h
  | cons l rest ih =>
    intro s x h
    rcases ih h with h1 | ⟨l', hl', he⟩
    · rcases enqueueStep_frontier_cases h1 with h2 | h2
      · exact Or.inr ⟨l, List.mem_cons_self _ _, h2⟩
      · exact Or.inl h2
    · exact Or.inr ⟨l', List.mem_cons_of_mem _ hl', he⟩

theorem foldl_enqueue_pres_disj {env : CrawlEnv} :
    ∀ (ls : List Str) (s : CrawlState),
      (∀ x ∈ s.frontier, x ∉ s.visited) →
      ∀ x ∈ (ls.foldl (enqueueStep env) s).frontier,
        x ∉ (ls.foldl (enqueueStep env) s).visited := by
  intro ls
  induction ls with
  | nil => intro s hd; exact hd
  | cons l rest ih =>
    intro s hd
    exact ih (enqueueStep env s l) (enqueueStep_pres_disj l hd)

theorem foldl_enqueue_keep_out {env : CrawlEnv} :
    ∀ (ls : List Str) (s : CrawlState) {u : Str}, u ∈ s.visited → u ∉ s.frontier →
      u ∉ (ls.foldl (enqueueStep env) s).frontier := by
  intro ls
  induction ls with
  | nil => intro s u _ hf; exact hf
  | cons l rest ih =>
    intro s u hv hf
    apply ih (enqueueStep env s l)
    · rw [enqueueStep_visited]; exact hv
    · exact enqueueStep_keep_out l hv hf

theorem crawlIter_eq (env : CrawlEnv) (u : Str) (s : CrawlState) :
    crawlIter env u s =
      if u ∈ s.visited then { s with frontier := s.frontier.erase u }
      else ((extract_links_and_titles env u s.page_data).2.foldl (enqueueStep env)
        ⟨s.frontier.erase u, insert u s.visited, s.all_links,
         (extract_links_and_titles env u s.page_data).1⟩) := by
  unfold crawlIter crawlIterPartial
  by_cases h : u ∈ s.visited
  · rw [if_pos h, if_pos h]
  · rw [if_neg h, if_neg h]
    dsimp only
    rw [List.take_length]

theorem crawlIter_visited (env : CrawlEnv) (u : Str) (s : CrawlState) :
    (crawlIter env u s).visited
      = if u ∈ s.visited then s.visited else insert u s.visited := by
  rw [crawlIter_eq]
  by_cases h : u ∈ s.visited
  · rw [if_pos h, if_pos h]
  · rw [if_neg h, if_neg h, foldl_enqueue_visited]

theorem crawlIter_page_data_other {env : CrawlEnv} {u s} {x : Str} (hx : x ≠ u) :
    (crawlIter env u s).page_data x = s.page_data x := by
  rw [crawlIter_eq]
  by_cases h : u ∈ s.visited
  · rw [if_pos h]
  · rw [if_neg h, foldl_enqueue_page_data]
    exact extract_pd_other s.page_data hx

theorem crawlInv_init (env : CrawlEnv) (mp : Nat) : CrawlInv env mp (initState env) := by
  refine ⟨?_, ?_, ?_, ?_⟩
  · show (∅ : Finset Str).card ≤ mp
    simp
  · intro x hx
    show x ∉ (∅ : Finset Str)
    exact Finset.not_mem_empty x
  · intro x hx
    exact absurd rfl hx
  · intro x hx
    left
    simp only [initState, Finset.empty_union, Finset.mem_singleton] at hx
    exact hx

theorem crawlInv_step {env : CrawlEnv} {mp : Nat} {s : CrawlState} {u : Str}
    (hinv : CrawlInv env mp s) (hu : u ∈ s.frontier) (hcard : s.visited.card < mp) :
    CrawlInv env mp (crawlIter env u s) := by
  obtain ⟨hc, hd, hpd, hprov⟩ := hinv
  have hunv : u ∉ s.visited := hd u hu
  rw [crawlIter_eq, if_neg hunv]
  refine ⟨?_, ?_, ?_, ?_⟩
  · rw [foldl_enqueue_visited]
    show (insert u s.visited).card ≤ mp
    have := Finset.card_insert_le u s.visited
    omega
  · apply foldl_enqueue_pres_disj
    intro x hx
    have hx' := Finset.mem_erase.1 hx
    show x ∉ insert u s.visited
    rw [Finset.mem_insert]
    push_neg
    exact ⟨hx'.1, hd x hx'.2⟩
  · intro x hx
    rw [foldl_enqueue_page_data] at hx
    rw [foldl_enqueue_visited]
    show x ∈ insert u s.visited
    rcases extract_pd_dom s.page_data hx with h1 | h1
    · exact h1 ▸ Finset.mem_insert_self u s.visited
    · exact Finset.mem_insert_of_mem (hpd x h1)
  · intro x hx
    rw [Finset.mem_union, foldl_enqueue_visited] at hx
    have hmain : x = env.cfg.base_url
        ∨ ∃ v ∈ insert u s.visited, x ∈ discoveredLinks env v := by
      rcases hx with hx | hx
      · rcases Finset.mem_insert.1 hx with h1 | h1
        · subst h1
          rcases hprov x (Finset.mem_union_right _ hu) with h2 | ⟨v, hv, hvl⟩
          · exact Or.inl h2
          · exact Or.inr ⟨v, Finset.mem_insert_of_mem hv, hvl⟩
        · rcases hprov x (Finset.mem_union_left _ h1) with h2 | ⟨v, hv, hvl⟩
          · exact Or.inl h2
          · exact Or.inr ⟨v, Finset.mem_insert_of_mem hv, hvl⟩
      · rcases foldl_enqueue_frontier_cases hx with h1 | ⟨l, hl, he⟩
        · have h2 := (Finset.mem_erase.1 h1).2
          rcases hprov x (Finset.mem_union_right _ h2) with h3 | ⟨v, hv, hvl⟩
          · exact Or.inl h3
          · exact Or.inr ⟨v, Finset.mem_insert_of_mem hv, hvl⟩
        · rw [extract_snd] at hl
          refine Or.inr ⟨u, Finset.mem_insert_self u s.visited, ?_⟩
          unfold discoveredLinks
          rw [List.mem_map]
          exact ⟨l, hl, he.symm⟩
    rcases hmain with h1 | ⟨v, hv, hvl⟩
    · exact Or.inl h1
    · refine Or.inr ⟨v, ?_, hvl⟩
      rw [foldl_enqueue_visited]
      exact hv

theorem crawlInv_reachable {env : CrawlEnv} {mp : Nat} {s : CrawlState}
    (h : Reachable env mp s) : CrawlInv env mp s := by
  induction h with
  | refl => exact crawlInv_init env mp
  | tail hab hbc ih =>
    rcases hbc with ⟨u, t, hu, hcard⟩
    exact crawlInv_step ih hu hcard

theorem crawlIterPartial_disj {env : CrawlEnv} {u : Str} {s : CrawlState} {k : Nat}
    (hd : ∀ x ∈ s.frontier, x ∉ s.visited) :
    ∀ x ∈ (crawlIterPartial env u s k).frontier,
      x ∉ (crawlIterPartial env u s k).visited := by
  unfold crawlIterPartial
  by_cases h : u ∈ s.visited
  · rw [if_pos h]
    intro x hx
    show x ∉ s.visited
    exact hd x (Finset.mem_erase.1 hx).2
  · rw [if_neg h]
    dsimp only
    apply foldl_enqueue_pres_disj
    intro x hx
    have hx' := Finset.mem_erase.1 hx
    show x ∉ insert u s.visited
    rw [Finset.mem_insert]
    push_neg
    exact ⟨hx'.1, hd x hx'.2⟩

theorem crawlStep_pres_gone {env : CrawlEnv} {mp : Nat} {s t : CrawlState}
    (hst : CrawlStep env mp s t) {u : Str} (h1 : u ∈ s.visited)
    (h2 : u ∉ s.frontier) (h3 : s.page_data u = none) :
    u ∈ t.visited ∧ u ∉ t.frontier ∧ t.page_data u = none := by
  rcases hst with ⟨w, s, hw, hcard⟩
  have hwu : w ≠ u := fun he => h2 (he ▸ hw)
  refine ⟨?_, ?_, ?_⟩
  · rw [crawlIter_visited]
    by_cases hws : w ∈ s.visited
    · rw [if_pos hws]; exact h1
    · rw [if_neg hws]; exact Finset.mem_insert_of_mem h1
  · rw [crawlIter_eq]
    by_cases hws : w ∈ s.visited
    · rw [if_pos hws]
      show u ∉ s.frontier.erase w
      intro hm
      exact h2 (Finset.mem_erase.1 hm).2
    · rw [if_neg hws]
      apply foldl_enqueue_keep_out
      · show u ∈ insert w s.visited
        exact Finset.mem_insert_of_mem h1
      · show u ∉ s.frontier.erase w
        intro hm
        exact h2 (Finset.mem_erase.1 hm).2
  · rw [crawlIter_page_data_other (Ne.symm hwu)]
    exact h3

theorem reach_pres_gone {env : CrawlEnv} {mp : Nat} {s t : CrawlState}
    (h : Relation.ReflTransGen (CrawlStep env mp) s t) {u : Str}
    (h1 : u ∈ s.visited) (h2 : u ∉ s.frontier) (h3 : s.page_data u = none) :
    u ∈ t.visited ∧ u ∉ t.frontier ∧ t.page_data u = none := by
  induction h with
  | refl => exact ⟨h1, h2, h3⟩
  | tail hab hbc ih =>
    obtain ⟨g1, g2, g3⟩ := ih
    exact crawlStep_pres_gone hbc g1 g2 g3

theorem crawlIter_fail (env : CrawlEnv) {u : Str} {s : CrawlState}
    (hnv : u ∉ s.visited) (hf : env.fetch u = none) :
    crawlIter env u s
      = ⟨s.frontier.erase u, insert u s.visited, s.all_links, s.page_data⟩ := by
  rw [crawlIter_eq, if_neg hnv, extract_fail s.page_data hf]
  rfl

/-! ### The normalized form contains no `#`; CSV ordering facts -/

theorem urlparse_scheme_no_hash {u : Str} : '#' ∉ (urlparseList u).scheme := by
  have hsc : (urlparseList u).scheme = (schemeSplit u).1 := rfl
  rw [hsc]
  rcases hsp : splitAtFirst ':' u with _ | ⟨pre, post⟩
  · rw [schemeSplit_eq_none hsp]
    simp
  · rw [schemeSplit_eq_some hsp]
    by_cases hv : validScheme pre = true
    · rw [if_pos hv]
      exact validScheme_not_mem (validScheme_lowerStr hv) (by decide) (by decide)
    · rw [if_neg hv]
      simp

theorem normalize_no_hash (u : Str) : '#' ∉ normalize_url u := by
  intro hm
  have hshape : normalize_url u = (urlparseList u).scheme ++ ':' :: '/' :: '/' ::
      ((urlparseList u).netloc ++ rstripSlash (urlparseList u).path)
      ++ (if (urlparseList u).query.isEmpty then [] else '?' :: (urlparseList u).query) := rfl
  rw [hshape] at hm
  rcases List.mem_append.1 hm with h1 | h1
  · rcases List.mem_append.1 h1 with h2 | h2
    · exact urlparse_scheme_no_hash h2
    · rcases List.mem_cons.1 h2 with h3 | h3
      · exact absurd h3 (by decide)
      · rcases List.mem_cons.1 h3 with h4 | h4
        · exact absurd h4 (by decide)
        · rcases List.mem_cons.1 h4 with h5 | h5
          · exact absurd h5 (by decide)
          · rcases List.mem_append.1 h5 with h6 | h6
            · have := urlparse_netloc_ok h6
              simp [nlOk] at this
            · exact urlparse_path_not_hash (mem_rstripSlash h6)
  · by_cases hq : (urlparseList u).query.isEmpty
    · rw [if_pos hq] at h1
      simp at h1
    · rw [if_neg hq] at h1
      rcases List.mem_cons.1 h1 with h2 | h2
      · exact absurd h2 (by decide)
      · exact urlparse_query_not_hash h2

theorem ignore_anchored_normalize (u : Str) :
    ignore_anchored_links (normalize_url u) = normalize_url u := by
  unfold ignore_anchored_links
  rcases hsp : splitAtFirst '#' (normalize_url u) with _ | ⟨l, r⟩
  · rfl
  · obtain ⟨he, _⟩ := splitAtFirst_some hsp
    have : '#' ∈ normalize_url u := by
      rw [he]
      exact List.mem_append_right _ (List.mem_cons_self _ _)
    exact absurd this (normalize_no_hash u)

theorem lexLe_total : ∀ a b : Str, SLe a b ∨ SLe b a := by
  intro a
  induction a with
  | nil =>
    intro b
    left
    rfl
  | cons x xs ih =>
    intro b
    rcases b with _ | ⟨y, ys⟩
    · right
      rfl
    · rcases lt_trichotomy x y with hlt | heq | hgt
      · left
        show lexLe (x :: xs) (y :: ys) = true
        unfold lexLe
        rw [if_pos hlt]
      · subst heq
        rcases ih ys with h1 | h1
        · left
          show lexLe (x :: xs) (x :: ys) = true
          unfold lexLe
          rw [if_neg (lt_irrefl x), if_pos rfl]
          exact h1
        · right
          show lexLe (x :: ys) (x :: xs) = true
          unfold lexLe
          rw [if_neg (lt_irrefl x), if_pos rfl]
          exact h1
      · right
        show lexLe (y :: ys) (x :: xs) = true
        unfold lexLe
        rw [if_pos hgt]

theorem lexLe_trans : ∀ a b c : Str, SLe a b → SLe b c → SLe a c := by
  intro a
  induction a with
  | nil =>
    intro b c _ _
    rfl
  | cons x xs ih =>
    intro b c hab hbc
    rcases b with _ | ⟨y, ys⟩
    · exact absurd hab (by simp [SLe, lexLe])
    · rcases c with _ | ⟨z, zs⟩
      · exact absurd hbc (by simp [SLe, lexLe])
      · show lexLe (x :: xs) (z :: zs) = true
        have hab' : lexLe (x :: xs) (y :: ys) = true := hab
        have hbc' : lexLe (y :: ys) (z :: zs) = true := hbc
        unfold lexLe at hab' hbc' ⊢
        by_cases hxy : x < y
        · rw [if_pos hxy] at hab'
          by_cases hyz : y < z
          · rw [if_pos (lt_trans hxy hyz)]
          · rw [if_neg hyz] at hbc'
            by_cases hyz2 : y = z
            · subst hyz2
              rw [if_pos hxy]
            · rw [if_neg hyz2] at hbc'
              exact absurd hbc' (by simp)
        · rw [if_neg hxy] at hab'
          by_cases hxy2 : x = y
          · subst hxy2
            rw [if_pos rfl] at hab'
            by_cases hxz : x < z
            · rw [if_pos hxz]
            · rw [if_neg hxz] at hbc' ⊢
              by_cases hxz2 : x = z
              · rw [if_pos hxz2] at hbc' ⊢
                exact ih ys zs hab' hbc'
              · rw [if_neg hxz2] at hbc'
                exact absurd hbc' (by simp)
          · rw [if_neg hxy2] at hab'
            exact absurd hab' (by simp)

instance : IsTotal Str SLe := ⟨lexLe_total⟩

instance : IsTrans Str SLe := ⟨fun a b c => lexLe_trans a b c⟩

theorem is_valid_url_pattern_reject {cfg : Config} {url p : Str}
    (hp : p ∈ nonContentPatterns) (hsub : containsSub p (lowerStr url) = true) :
    is_valid_url cfg url = false := by
  have hany : nonContentPatterns.any (fun q => containsSub q (lowerStr url)) = true :=
    List.any_eq_true.2 ⟨p, hp, hsub⟩
  unfold is_valid_url
  dsimp only
  by_cases h1 : (!is_same_domain cfg url) = true
  · rw [if_pos h1]
  · rw [if_neg h1]
    by_cases h2 : (cfg.ignore_woocommerce_urls && woocommerce_ignore_cart_urls url) = true
    · rw [if_pos h2]
    · rw [if_neg h2, if_pos hany]

theorem csvRow_third (pd : PageData) (today u : Str) :
    (csvRow pd today u).getD 2 [] = ignore_anchored_links u := rfl

theorem generate_csv_eq (cfg : Config) (links : List Str) (pd : PageData) (today : Str) :
    generate_csv cfg links pd today
      = csvHeader ::
        (List.insertionSort SLe (((cfg.base_url :: links).map normalize_url).dedup)).map
          (csvRow pd today) := rfl

theorem mem_sorted_unique_iff (cfg : Config) (links : List Str) (u : Str) :
    u ∈ List.insertionSort SLe (((cfg.base_url :: links).map normalize_url).dedup)
      ↔ u ∈ (cfg.base_url :: links).map normalize_url := by
  rw [(List.perm_insertionSort SLe _).mem_iff, List.mem_dedup]

theorem sorted_unique_norm (cfg : Config) (links : List Str) {u : Str}
    (h : u ∈ List.insertionSort SLe (((cfg.base_url :: links).map normalize_url).dedup)) :
    ignore_anchored_links u = u := by
  rw [mem_sorted_unique_iff] at h
  obtain ⟨x, _, hx⟩ := List.mem_map.1 h
  rw [← hx]
  exact ignore_anchored_normalize x

/-! ### Claim theorems -/

/-- C1: for every crawl run with page budget `maxPages`, at every reachable
state the visited set holds at most `maxPages` URLs, and every visited URL
is either the normalized seed or was discovered as a link on a page that is
itself in the visited set. -/
theorem crawl_budget_and_provenance {env : CrawlEnv} {mp : Nat} {s : CrawlState}
    (h : Reachable env mp s) :
    s.visited.card ≤ mp ∧
    ∀ x ∈ s.visited, x = env.cfg.base_url
      ∨ ∃ v ∈ s.visited, x ∈ discoveredLinks env v := by
  obtain ⟨hc, _, _, hprov⟩ := crawlInv_reachable h
  exact ⟨hc, fun x hx => hprov x (Finset.mem_union_left _ hx)⟩

/-- Witness for C1: after one iteration of a concrete run with budget 5, the
visited set is within the budget. -/
theorem crawl_budget_and_provenance_w : wS1.visited.card ≤ 5 :=
  (crawl_budget_and_provenance (Relation.ReflTransGen.single
    (@CrawlStep.step wEnv 5 "https://example.com".toList (initState wEnv)
      (by decide) (by decide)))).1

/-- C2: at every reachable state of a crawl run the frontier and the visited
set are disjoint, and they remain disjoint at every intermediate point of an
iteration: after the dequeue of any frontier URL and after each of the first
`k` enqueue checks, for every `k`. -/
theorem frontier_visited_disjoint {env : CrawlEnv} {mp : Nat} {s : CrawlState}
    (h : Reachable env mp s) :
    Disjoint s.frontier s.visited ∧
    ∀ u ∈ s.frontier, ∀ k : Nat,
      Disjoint (crawlIterPartial env u s k).frontier
        (crawlIterPartial env u s k).visited := by
  have hd := (crawlInv_reachable h).2.1
  constructor
  · rw [Finset.disjoint_left]
    exact fun a ha => hd a ha
  · intro u hu k
    rw [Finset.disjoint_left]
    exact fun a ha => crawlIterPartial_disj hd a ha

/-- Witness for C2: disjointness after one concrete iteration. -/
theorem frontier_visited_disjoint_w : Disjoint wS1.frontier wS1.visited :=
  (frontier_visited_disjoint (Relation.ReflTransGen.single
    (@CrawlStep.step wEnv 5 "https://example.com".toList (initState wEnv)
      (by decide) (by decide)))).1

/-- C3: when the fetch of a dequeued URL fails (transport error, timeout or
non-2xx status, modelled as `env.fetch u = none`), the iteration creates no
page record for it, marks it visited, leaves exactly the remaining frontier
(the loop continues rather than aborting), and in every later state the URL
is still visited, never re-enqueued, and still has no record. -/
theorem fetch_failure_recoverable {env : CrawlEnv} {mp : Nat}
    {s s2 : CrawlState} {u : Str} (h : Reachable env mp s) (hu : u ∈ s.frontier)
    (hf : env.fetch u = none)
    (h2 : Relation.ReflTransGen (CrawlStep env mp) (crawlIter env u s) s2) :
    (crawlIter env u s).page_data u = none ∧
    u ∈ (crawlIter env u s).visited ∧
    (crawlIter env u s).frontier = s.frontier.erase u ∧
    (u ∈ s2.visited ∧ u ∉ s2.frontier ∧ s2.page_data u = none) := by
  obtain ⟨_, hd, hpd, _⟩ := crawlInv_reachable h
  have hnv : u ∉ s.visited := hd u hu
  have hpdu : s.page_data u = none := by
    by_contra hne
    exact hnv (hpd u hne)
  have hit := crawlIter_fail env hnv hf
  have hA : (crawlIter env u s).page_data u = none := by
    rw [hit]
    exact hpdu
  have hB : u ∈ (crawlIter env u s).visited := by
    rw [hit]
    exact Finset.mem_insert_self u s.visited
  have hC : (crawlIter env u s).frontier = s.frontier.erase u := by rw [hit]
  have hnf : u ∉ (crawlIter env u s).frontier := by
    rw [hC]
    intro hm
    exact (Finset.mem_erase.1 hm).1 rfl
  exact ⟨hA, hB, hC, reach_pres_gone h2 hB hnf hA⟩

/-- Witness for C3: a concrete run whose every fetch fails. -/
theorem fetch_failure_recoverable_w :
    wS1F.page_data "https://example.com".toList = none ∧
    "https://example.com".toList ∈ wS1F.visited ∧
    wS1F.frontier = (initState wEnvF).frontier.erase "https://example.com".toList ∧
    ("https://example.com".toList ∈ wS1F.visited ∧
      "https://example.com".toList ∉ wS1F.frontier ∧
      wS1F.page_data "https://example.com".toList = none) := by
  exact @fetch_failure_recoverable wEnvF 5 (initState wEnvF) wS1F
    "https://example.com".toList Relation.ReflTransGen.refl (by decide) rfl
    Relation.ReflTransGen.refl

/-- C4 (counterexample): the claim says `normalize_url` strips a single
trailing slash from the path; on `https://a.com/page//` the code strips
both slashes, while the single-slash reading predicts `https://a.com/page/`,
so the two disagree at this input. -/
theorem normalize_single_slash_cex :
    normalizeSpecSingle "https://a.com/page//".toList = "https://a.com/page/".toList ∧
    normalize_url "https://a.com/page//".toList = "https://a.com/page".toList ∧
    normalizeSpecSingle "https://a.com/page//".toList
      ≠ normalize_url "https://a.com/page//".toList := by decide

/-- C4 (amended): `normalize_url` removes the fragment, strips ALL trailing
slashes from the path component only (the root path normalizes to an empty
path), and preserves the query; in particular
`normalize("https://a.com/page/") = normalize("https://a.com/page")` and
`normalize("https://a.com/p#sec") = normalize("https://a.com/p")`. -/
theorem normalize_fragment_and_trailing_slashes :
    (∀ u : Str, normalize_url (ignore_anchored_links u) = normalize_url u) ∧
    (∀ (u : Str) (k : Nat), '#' ∉ u → '?' ∉ u → ';' ∉ u →
      normalize_url (u ++ List.replicate k '/') = normalize_url u) ∧
    normalize_url "https://a.com/".toList = "https://a.com".toList ∧
    normalize_url "https://a.com/page/".toList
      = normalize_url "https://a.com/page".toList ∧
    normalize_url "https://a.com/p#sec".toList
      = normalize_url "https://a.com/p".toList ∧
    normalize_url "https://a.com/p/?q=1&x=2#sec".toList
      = "https://a.com/p?q=1&x=2".toList ∧
    normalize_url "https://a.com/page//".toList = "https://a.com/page".toList :=
  ⟨normalize_ignore_anchored,
   fun u k h1 h2 h3 => normalize_replicate_slash h1 h2 h3 k,
   by decide, by decide, by decide, by decide, by decide⟩

/-- Witness for C4's amended claim: stripping two appended slashes. -/
theorem normalize_fragment_and_trailing_slashes_w :
    normalize_url ("https://a.com/page".toList ++ List.replicate 2 '/')
      = normalize_url "https://a.com/page".toList :=
  normalize_fragment_and_trailing_slashes.2.1 "https://a.com/page".toList 2
    (by decide) (by decide) (by decide)

/-- C5 (counterexample): canonicalization is not idempotent on every URL
string: for the schemeless `www.example.com/page` the first pass yields
`://www.example.com/page` and the second pass prepends `://` again. -/
theorem normalize_idem_cex :
    normalize_url "www.example.com/page".toList = "://www.example.com/page".toList ∧
    normalize_url (normalize_url "www.example.com/page".toList)
      ≠ normalize_url "www.example.com/page".toList := by decide

/-- C5 (amended): canonicalization is idempotent on every URL that parses
with a nonempty scheme and whose parsed path contains no `;` (the
`urlparse` params corner). -/
theorem normalize_idem_schemed :
    ∀ u : Str, (urlparseList u).scheme ≠ [] → ';' ∉ (urlparseList u).path →
      normalize_url (normalize_url u) = normalize_url u :=
  fun _ h1 h2 => normalize_idem_core h1 h2

/-- Witness for C5's amended claim. -/
theorem normalize_idem_schemed_w :
    normalize_url (normalize_url "https://a.com/page/?q=1".toList)
      = normalize_url "https://a.com/page/?q=1".toList :=
  normalize_idem_schemed "https://a.com/page/?q=1".toList (by decide) (by decide)

/-- C6: domain scoping strips one leading `www.` from both the candidate
host and the base domain, so `www.example.com` and `example.com` are the
same site while `blog.example.com` is not, for a seed with or without
`www.`. -/
theorem same_domain_www_policy :
    is_same_domain wCfg "https://www.example.com/about".toList = true ∧
    is_same_domain wCfg "https://example.com/about".toList = true ∧
    is_same_domain wCfg "https://blog.example.com/about".toList = false ∧
    is_same_domain (mkGenerator "www.example.com".toList false)
      "https://www.example.com/about".toList = true ∧
    is_same_domain (mkGenerator "www.example.com".toList false)
      "https://example.com/about".toList = true ∧
    is_same_domain (mkGenerator "www.example.com".toList false)
      "https://blog.example.com/about".toList = false ∧
    (mkGenerator "www.example.com".toList false).base_domain
      = "example.com".toList := by decide

/-- C7: the link filter rejects a same-domain URL ending in `report.pdf`,
rejects `image.PNG?v=2` (case-insensitive extension check tolerating a
query string), rejects a `cart` path when WooCommerce filtering is enabled,
and accepts `/blog/post-1`. -/
theorem link_filter_examples :
    is_valid_url wCfg "https://example.com/report.pdf".toList = false ∧
    is_valid_url wCfg "https://example.com/image.PNG?v=2".toList = false ∧
    is_valid_url wCfgT "https://example.com/cart/".toList = false ∧
    is_valid_url wCfg "https://example.com/blog/post-1".toList = true ∧
    is_valid_url wCfgT "https://example.com/blog/post-1".toList = true := by decide

/-- C8: metadata extraction yields the sentinel `No SEO title found` when
the title is absent or empty, `No H1 found` when no H1 exists, and a page
with a malformed body (no title, no H1) still gets a page record with the
sentinel values. -/
theorem metadata_sentinels :
    (∀ pg : PageContent, pg.title = none →
      (extract_seo_title_and_h1 pg).1 = "No SEO title found".toList) ∧
    (∀ (pg : PageContent) (s : Str), pg.title = some s → s = [] →
      (extract_seo_title_and_h1 pg).1 = "No SEO title found".toList) ∧
    (∀ pg : PageContent, pg.h1 = none →
      (extract_seo_title_and_h1 pg).2 = "No H1 found".toList) ∧
    (∀ (env : CrawlEnv) (url : Str) (pd : PageData) (pg : PageContent),
      env.fetch url = some pg → pg.title = none → pg.h1 = none →
      (extract_links_and_titles env url pd).1 url
        = some ⟨"No SEO title found".toList, "No H1 found".toList, env.today⟩) := by
  refine ⟨?_, ?_, ?_, ?_⟩
  · intro pg h
    unfold extract_seo_title_and_h1
    rw [h]
  · intro pg s h hs
    subst hs
    unfold extract_seo_title_and_h1
    rw [h]
    rfl
  · intro pg h
    unfold extract_seo_title_and_h1
    rw [h]
  · intro env url pd pg hf ht hh
    unfold extract_links_and_titles
    rw [hf]
    dsimp only
    rw [if_pos rfl]
    unfold extract_seo_title_and_h1
    rw [ht, hh]

/-- Witness for C8: a malformed page in a concrete environment still
produces a record with both sentinels. -/
theorem metadata_sentinels_w :
    (extract_links_and_titles wEnvM "https://example.com".toList
      (fun _ => none)).1 "https://example.com".toList
      = some ⟨"No SEO title found".toList, "No H1 found".toList,
          "2026-10-12".toList⟩ :=
  metadata_sentinels.2.2.2 wEnvM "https://example.com".toList (fun _ => none)
    ⟨none, none, []⟩ rfl rfl rfl

/-- C9: the CSV emitter writes the header row first, then exactly one data
row per canonical URL in {seed} ∪ discovered links (membership both ways,
with no duplicate permalinks), rows sorted by canonical URL ascending; a
URL with no page record gets `Not crawled`/`Not crawled` and the current
date. -/
theorem generate_csv_spec (cfg : Config) (links : List Str) (pd : PageData)
    (today : Str) :
    (generate_csv cfg links pd today).head? = some csvHeader ∧
    List.Sorted SLe
      ((generate_csv cfg links pd today).tail.map (fun r => r.getD 2 [])) ∧
    ((generate_csv cfg links pd today).tail.map (fun r => r.getD 2 [])).Nodup ∧
    (∀ u, u ∈ (generate_csv cfg links pd today).tail.map (fun r => r.getD 2 [])
      ↔ u ∈ (cfg.base_url :: links).map normalize_url) ∧
    (∀ u, u ∈ (cfg.base_url :: links).map normalize_url → pd u = none →
      ["Not crawled".toList, "Not crawled".toList, u, today]
        ∈ (generate_csv cfg links pd today).tail) := by
  have htail : (generate_csv cfg links pd today).tail
      = (List.insertionSort SLe
          (((cfg.base_url :: links).map normalize_url).dedup)).map (csvRow pd today) := rfl
  have hmapeq : ((generate_csv cfg links pd today).tail.map (fun r => r.getD 2 []))
      = List.insertionSort SLe (((cfg.base_url :: links).map normalize_url).dedup) := by
    rw [htail, List.map_map]
    have hcongr : ∀ u ∈ List.insertionSort SLe
        (((cfg.base_url :: links).map normalize_url).dedup),
        ((fun r => List.getD r 2 []) ∘ csvRow pd today) u = id u := by
      intro u hu
      show (csvRow pd today u).getD 2 [] = u
      rw [csvRow_third]
      exact sorted_unique_norm cfg links hu
    rw [List.map_congr_left hcongr, List.map_id]
  refine ⟨rfl, ?_, ?_, ?_, ?_⟩
  · rw [hmapeq]
    exact List.sorted_insertionSort SLe _
  · rw [hmapeq]
    exact (List.perm_insertionSort SLe _).nodup_iff.2 (List.nodup_dedup _)
  · intro u
    rw [hmapeq]
    exact mem_sorted_unique_iff cfg links u
  · intro u hu hpd
    have hu2 : u ∈ List.insertionSort SLe
        (((cfg.base_url :: links).map normalize_url).dedup) :=
      (mem_sorted_unique_iff cfg links u).2 hu
    have hrow : csvRow pd today u
        = ["Not crawled".toList, "Not crawled".toList, u, today] := by
      unfold csvRow
      rw [hpd]
      have := sorted_unique_norm cfg links hu2
      rw [this]
    rw [htail, ← hrow]
    exact List.mem_map_of_mem (csvRow pd today) hu2

/-- Witness for C9: a concrete one-link crawl with no records produces the
sentinel row. -/
theorem generate_csv_spec_w :
    ["Not crawled".toList, "Not crawled".toList, "https://example.com/a".toList,
      "2026-10-12".toList]
      ∈ (generate_csv wCfg ["https://example.com/a".toList] (fun _ => none)
          "2026-10-12".toList).tail :=
  (generate_csv_spec wCfg ["https://example.com/a".toList] (fun _ => none)
    "2026-10-12".toList).2.2.2.2 "https://example.com/a".toList (by decide) rfl

/-- C10: the non-content infrastructure filter is a plain case-insensitive
substring test over the whole URL: any URL whose lower-cased text contains
one of the patterns anywhere is rejected, including mid-word occurrences
such as the path `/coffeed/page`, which contains `feed/`. -/
theorem noncontent_substring_filter :
    (∀ (cfg : Config) (url p : Str), p ∈ nonContentPatterns →
      containsSub p (lowerStr url) = true → is_valid_url cfg url = false) ∧
    containsSub "feed/".toList
      (lowerStr "https://example.com/coffeed/page".toList) = true ∧
    is_valid_url wCfg "https://example.com/coffeed/page".toList = false :=
  ⟨fun _ _ _ hp hs => is_valid_url_pattern_reject hp hs, by decide, by decide⟩

/-- Witness for C10: the general substring rejection applied to a concrete
URL containing `xmlrpc.php`. -/
theorem noncontent_substring_filter_w :
    is_valid_url wCfgT "https://example.com/xmlrpc.php".toList = false :=
  noncontent_substring_filter.1 wCfgT "https://example.com/xmlrpc.php".toList
    "xmlrpc.php".toList (by decide) (by decide)
